import Mathlib

/-!
A shallow embedding of the 2-D geometric constraint solver of
twill-drafting (src/geometry.ts, src/data.ts, src/constraints.ts),
with theorems checking the specification's claims about it.

JavaScript numbers are modelled by real numbers.  Where the source
relies on IEEE-754 special values (`isFinite` guards after a division
by zero, `Math.acos`/`Math.asin` returning NaN out of range), the
embedding spells the guarded condition out; each such place carries a
comment.  Division by zero in the model follows Lean's convention
(`x / 0 = 0`) and is never relied upon by a theorem.
-/

namespace Twill

/-! ## Geometry kernel (src/geometry.ts) -/

/-- A position on the plane, in millimeters. -/
structure Position where
  x : ℝ
  y : ℝ

/-- The numeric tolerance used by every comparison (1e-3 mm). -/
noncomputable def EPSILON : ℝ := 1 / 1000

noncomputable def pointSubtract (left right : Position) : Position :=
  ⟨left.x - right.x, left.y - right.y⟩

noncomputable def pointMagnitude (a : Position) : ℝ :=
  Real.sqrt (a.x ^ 2 + a.y ^ 2)

noncomputable def pointDistance (a b : Position) : ℝ :=
  Real.sqrt ((b.x - a.x) ^ 2 + (b.y - a.y) ^ 2)

noncomputable def pointDot (a b : Position) : ℝ :=
  a.x * b.x + a.y * b.y

/-- Source: `linearSum(...vs) = Σ c_i · v_i`, folding left over the list. -/
noncomputable def linearSum (vs : List (ℝ × Position)) : Position :=
  vs.foldl (fun out cv => ⟨out.x + cv.1 * cv.2.x, out.y + cv.1 * cv.2.y⟩) ⟨0, 0⟩

noncomputable def pointUnit (p : Position) : Position :=
  linearSum [(1 / pointMagnitude p, p)]

structure Circle where
  radius : ℝ
  center : Position

structure Line where
  from_ : Position
  to_ : Position

/-- Source: `Segment.asVector` — unit direction and length, both zero for a
degenerate segment (the source compares the length to 0 bit-exactly). -/
noncomputable def segmentAsVector (f t : Position) : Position × ℝ :=
  let dx := t.x - f.x
  let dy := t.y - f.y
  let dm := Real.sqrt (dx ^ 2 + dy ^ 2)
  if dm = 0 then (⟨0, 0⟩, 0) else (⟨dx / dm, dy / dm⟩, dm)

/-- Source: `Segment.nearestToLine(q).position` — the orthogonal projection of
`q` onto the infinite line through `f` and `t`. -/
noncomputable def nearestToLinePos (f t q : Position) : Position :=
  let v := segmentAsVector f t
  if v.2 = 0 then f
  else
    let qx := q.x - f.x
    let qy := q.y - f.y
    let dot := qx * v.1.x + qy * v.1.y
    ⟨f.x + dot * v.1.x, f.y + dot * v.1.y⟩

/-- Source: `lineIntersection` — the meeting point of two infinite lines, or
none when the denominator is 0 (bit-exact), i.e. the lines are parallel. -/
noncomputable def lineIntersection (a b : Line) : Option Position :=
  let da := pointUnit (pointSubtract a.to_ a.from_)
  let db := pointUnit (pointSubtract b.to_ b.from_)
  let na : Position := ⟨da.y, -da.x⟩
  let numerator := pointDot (pointSubtract b.from_ a.from_) na
  let denominator := pointDot db na
  if denominator = 0 then none
  else some (linearSum [(1, b.from_), (-(numerator / denominator), db)])

/-- Result type of `circleCircleIntersection`: a finite set of points, or a
whole circle when the two circles coincide. -/
inductive CCIResult where
  | points (points : List Position)
  | circle (circle : Circle)

/-- Source: `circleCircleIntersection`.  The source normalizes negative radii
by recursing with the absolute value; that recursion is unfolded into the two
leading conditionals.  JavaScript `Math.acos` yields NaN outside `[-1, 1]` and
after a division by zero, and the source then takes the `!isFinite` branch and
returns no points; both conditions are spelled out before `arccos` is used. -/
noncomputable def circleCircleIntersection (a b : Circle) (eps : ℝ := EPSILON) :
    CCIResult :=
  let a := if a.radius < 0 then Circle.mk (-a.radius) a.center else a
  let b := if b.radius < 0 then Circle.mk (-b.radius) b.center else b
  let separation := pointSubtract b.center a.center
  let separationLength := pointMagnitude separation
  if separationLength ≤ eps then
    if |a.radius - b.radius| ≤ eps then .circle a else .points []
  else if |separationLength - (a.radius + b.radius)| ≤ eps then
    .points [linearSum [(1, a.center), (a.radius / (a.radius + b.radius), separation)]]
  else if |separationLength - abs (a.radius - b.radius)| ≤ eps then
    if a.radius > b.radius then
      .points [linearSum [(1, a.center), (a.radius / (a.radius + b.radius), separation)]]
    else
      .points [linearSum [(1, b.center), (-(b.radius / (a.radius + b.radius)), separation)]]
  else if 2 * a.radius * separationLength = 0 then .points []
  else
    let arg := (a.radius ^ 2 + separationLength ^ 2 - b.radius ^ 2) /
      (2 * a.radius * separationLength)
    if arg < -1 ∨ 1 < arg then .points []
    else
      let aAngle := Real.arccos arg
      let horizontal : Position := ⟨separation.x / separationLength, separation.y / separationLength⟩
      let vertical : Position := ⟨-horizontal.y, horizontal.x⟩
      .points [
        linearSum [(1, a.center), (a.radius * Real.cos aAngle, horizontal),
          (a.radius * Real.sin aAngle, vertical)],
        linearSum [(1, a.center), (a.radius * Real.cos aAngle, horizontal),
          (-(a.radius * Real.sin aAngle), vertical)]]

/-- Source: `circleLineIntersection` — 0, 1 or 2 meeting points of a circle
and an infinite line. -/
noncomputable def circleLineIntersection (circle : Circle) (line : Line)
    (eps : ℝ := EPSILON) : List Position :=
  let nearest := nearestToLinePos line.from_ line.to_ circle.center
  let orthogonalOffset := pointSubtract nearest circle.center
  let orthgonalDistance := pointMagnitude orthogonalOffset
  let lineDirection := pointUnit (pointSubtract line.to_ line.from_)
  if orthgonalDistance ≤ eps then
    [linearSum [(1, circle.center), (circle.radius, lineDirection)],
     linearSum [(1, circle.center), (-circle.radius, lineDirection)]]
  else
    let radical := circle.radius ^ 2 - orthgonalDistance ^ 2
    if radical < -eps then []
    else if radical < eps then [nearest]
    else
      let dx := Real.sqrt radical
      [linearSum [(1, nearest), (dx, lineDirection)],
       linearSum [(1, nearest), (-dx, lineDirection)]]

/-! ## Locus algebra: the Gamut type and its structural operations
(src/constraints.ts, current snapshot) -/

/-- The closed locus data type: plane, point, circle, line, union, void. -/
inductive Gamut where
  | plane
  | point (point : Position)
  | circle (circle : Circle)
  | line (line : Line)
  | union (union : List Gamut)
  | void

def Gamut.isVoid : Gamut → Bool
  | .void => true
  | _ => false

def Gamut.isUnion : Gamut → Bool
  | .union _ => true
  | _ => false

/-! Source: `simplifyGamut` — flatten nested unions, drop void members,
rewrite a 0-member union to void and a 1-member union to its member.
The source flat-maps all members and then filters the voids once; filtering
each member's expansion (as here) yields the same list. -/
mutual

def simplifyGamut : Gamut → Gamut
  | .union l =>
    match simplifyMembers l with
    | [] => .void
    | [x] => x
    | flat => .union flat
  | g => g

def simplifyMembers : List Gamut → List Gamut
  | [] => []
  | e :: rest =>
    (match simplifyGamut e with
     | .union m => m
     | s => [s]).filter (fun x => !x.isVoid) ++ simplifyMembers rest

end

/-- Source: `ONE_DIMENSIONAL_FREEDOM = 1e5`. -/
def ONE_DIMENSIONAL_FREEDOM : ℕ := 100000

/-! The tag-directed freedom score, before the union branch's simplification.
Plane scores F squared, circle and line F, point 1, void 0, union the members' sum. -/
mutual

def gamutFreedomCore : Gamut → ℕ
  | .plane => ONE_DIMENSIONAL_FREEDOM ^ 2
  | .circle _ => ONE_DIMENSIONAL_FREEDOM
  | .line _ => ONE_DIMENSIONAL_FREEDOM
  | .point _ => 1
  | .void => 0
  | .union l => gamutFreedomCoreList l

def gamutFreedomCoreList : List Gamut → ℕ
  | [] => 0
  | g :: gs => gamutFreedomCore g + gamutFreedomCoreList gs

end

/-- Source: `gamutFreedom` — a union is simplified first, then scored.  After
simplification a union's members are never unions, so the source's recursive
calls on them coincide with `gamutFreedomCore`. -/
def gamutFreedom (g : Gamut) : ℕ :=
  match g with
  | .union l => gamutFreedomCore (simplifyGamut (.union l))
  | g => gamutFreedomCore g

/-! Source: `gamutEmpty` — void, or a union all of whose members are empty. -/
mutual

def gamutEmpty : Gamut → Bool
  | .void => true
  | .union l => gamutEmptyList l
  | _ => false

def gamutEmptyList : List Gamut → Bool
  | [] => true
  | g :: gs => gamutEmpty g && gamutEmptyList gs

end

/-! Source: `gamutNearest` — the position in the gamut nearest to the query,
none for an empty gamut.  The union branch folds over the members keeping the
strictly nearer result, so earlier members win ties. -/
mutual

noncomputable def gamutNearest : Gamut → Position → Option Position
  | .plane, q => some q
  | .circle c, q =>
    let delta := pointSubtract q c.center
    let deltaMagnitude := pointMagnitude delta
    if deltaMagnitude ≤ EPSILON then
      some (linearSum [(1, c.center), (c.radius, ⟨1, 0⟩)])
    else
      some (linearSum [(1, c.center), (c.radius / deltaMagnitude, delta)])
  | .point p, _ => some p
  | .union l, q => gamutNearestList l q none
  | .line l, q => some (nearestToLinePos l.from_ l.to_ q)
  | .void, _ => none

noncomputable def gamutNearestList : List Gamut → Position → Option Position → Option Position
  | [], _, best => best
  | e :: rest, q, best =>
    match gamutNearest e q with
    | none => gamutNearestList rest q best
    | some n =>
      match best with
      | none => gamutNearestList rest q (some n)
      | some b =>
        if pointDistance n q < pointDistance b q then gamutNearestList rest q (some n)
        else gamutNearestList rest q (some b)

end


/-! ## Intersection operators (src/constraints.ts, current snapshot) -/

/-! Source: `gamutCircleIntersection`.  The line branch calls
`circleLineIntersection` with the default epsilon, as the source does. -/
mutual

noncomputable def gamutCircleIntersection (gamut : Gamut) (circle : Circle)
    (eps : ℝ := EPSILON) : Gamut :=
  match gamut with
  | .plane => .circle circle
  | .circle own =>
    match circleCircleIntersection own circle eps with
    | .circle c => .circle c
    | .points ps => .union (ps.map (fun p => .point p))
  | .point p =>
    if |pointDistance p circle.center - circle.radius| ≥ eps then .void else .point p
  | .line l =>
    match circleLineIntersection circle l with
    | [] => .void
    | ps => .union (ps.map (fun p => .point p))
  | .void => .void
  | .union l => simplifyGamut (.union (gamutCircleIntersectionList l circle eps))

noncomputable def gamutCircleIntersectionList (l : List Gamut) (circle : Circle)
    (eps : ℝ) : List Gamut :=
  match l with
  | [] => []
  | e :: rest => gamutCircleIntersection e circle eps :: gamutCircleIntersectionList rest circle eps

end

/-- Source: the `line` branch loop of `gamutLinesIntersection`: intersect the
line gamut `gl` with each line in turn, collecting the meeting points, with an
early return of the whole line gamut (coincident parallel) or of void
(separated parallel). -/
noncomputable def gamutLineIntersectLoop (gl : Line) (acc : List Gamut) :
    List Line → Gamut
  | [] => simplifyGamut (.union acc)
  | line :: rest =>
    match lineIntersection line gl with
    | some p => gamutLineIntersectLoop gl (acc ++ [.point p]) rest
    | none =>
      let nearest := nearestToLinePos line.from_ line.to_ gl.from_
      let separation := pointDistance gl.from_ nearest
      if separation ≤ EPSILON then .line gl else .void

/-- Source: the `point` branch loop of `gamutLinesIntersection`: keep the point
if it lies within epsilon of any of the lines, else void. -/
noncomputable def gamutPointLinesLoop (p : Position) : List Line → Gamut
  | [] => .void
  | line :: rest =>
    let nearest := nearestToLinePos line.from_ line.to_ p
    if pointDistance nearest p ≤ EPSILON then .point p
    else gamutPointLinesLoop p rest

/-! Source: `gamutLinesIntersection`. -/
mutual

noncomputable def gamutLinesIntersection (gamut : Gamut) (lines : List Line)
    (eps : ℝ := EPSILON) : Gamut :=
  match gamut with
  | .plane => .union (lines.map (fun line => .line line))
  | .circle c =>
    .union ((lines.map (fun line =>
      (circleLineIntersection c line eps).map (fun p => Gamut.point p))).flatten)
  | .line gl => gamutLineIntersectLoop gl [] lines
  | .point p => gamutPointLinesLoop p lines
  | .union l => simplifyGamut (.union (gamutLinesIntersectionList l lines eps))
  | .void => .void

noncomputable def gamutLinesIntersectionList (l : List Gamut) (lines : List Line)
    (eps : ℝ) : List Gamut :=
  match l with
  | [] => []
  | e :: rest => gamutLinesIntersection e lines eps :: gamutLinesIntersectionList rest lines eps

end

/-! Source: `gamutGamutIntersection` — general pairwise intersection.  The
match arms follow the source's if-chain order: plane on either side, then
void, then dispatch on the second operand (union, circle, line, point). -/
mutual

noncomputable def gamutGamutIntersection (a b : Gamut) (eps : ℝ) : Gamut :=
  match a, b with
  | .plane, b => b
  | a, .plane => a
  | .void, _ => .void
  | _, .void => .void
  | a, .union l => simplifyGamut (.union (gamutGamutIntersectionList a l eps))
  | a, .circle c => gamutCircleIntersection a c eps
  | a, .line l => gamutLinesIntersection a [l] eps
  | a, .point p =>
    match gamutNearest a p with
    | none => .void
    | some nearest => if pointDistance nearest p > eps then .void else .point p

noncomputable def gamutGamutIntersectionList (a : Gamut) (l : List Gamut)
    (eps : ℝ) : List Gamut :=
  match l with
  | [] => []
  | right :: rest => gamutGamutIntersection a right eps :: gamutGamutIntersectionList a rest eps

end

/-! ## Constraints and their loci (src/constraints.ts, current snapshot) -/

/-- The constraint sum type: distance, segment-distance, fixed, angle. -/
inductive Constraint where
  | distance (a b : String) (distance : ℝ)
  | segmentDistance (a : String) (b : String × String) (distance : ℝ)
  | fixed (a : String) (position : Position)
  | angle (a b : String × String) (angleRadians : ℝ)

/-- Source: `constraintDependencies` — every point id the payload mentions. -/
def constraintDependencies : Constraint → List String
  | .distance a b _ => [a, b]
  | .fixed a _ => [a]
  | .angle a b _ => [a.1, a.2, b.1, b.2]
  | .segmentDistance a b _ => [a, b.1, b.2]

/-- An insertion-ordered map, as a JavaScript `Map` iterated in insertion
order: an association list, duplicate keys never constructed. -/
def mapGet (m : List (String × Position)) (k : String) : Option Position :=
  (m.find? (fun kv => kv.1 = k)).map (fun kv => kv.2)

def mapHas (m : List (String × Position)) (k : String) : Bool :=
  (mapGet m k).isSome

/-- JavaScript `Map.set`: replace in place when the key exists, else append. -/
def mapSet (m : List (String × Position)) (k : String) (v : Position) :
    List (String × Position) :=
  if mapHas m k then m.map (fun kv => if kv.1 = k then (k, v) else kv)
  else m ++ [(k, v)]

/-- The source reads required positions with a non-null assertion
(`map.get(x)!`, or a throw); a missing key would crash there.  The model
returns the origin instead; no theorem relies on that value. -/
noncomputable def mapGetD (m : List (String × Position)) (k : String) : Position :=
  (mapGet m k).getD ⟨0, 0⟩

/-- JavaScript `Math.atan2(y, x)`, the argument of the complex number
`x + y·i` (range `(-π, π]`). -/
noncomputable def atan2 (y x : ℝ) : ℝ := Complex.arg ⟨x, y⟩

/-- Source: `localConstraintToGamut` — the locus of positions the target
`v` may occupy given the fixed positions of the constraint's other points.
The `!isFinite` guards of the source fire, for finite inputs, exactly when
the normalized vector's magnitude is zero, and `Math.asin` is NaN exactly
when its argument leaves `[-1, 1]`; the model spells those conditions out. -/
noncomputable def localConstraintToGamut (v : String) (constraint : Constraint)
    (fixed : List (String × Position)) (eps : ℝ) : Gamut :=
  match constraint with
  | .fixed _ position => .point position
  | .distance a b d =>
    let fixedPoint := if a = v then mapGetD fixed b else mapGetD fixed a
    .circle ⟨d, fixedPoint⟩
  | .angle pa pb angleRadians =>
    let myLine := if v = pa.1 ∨ v = pa.2 then pa else pb
    let otherLine := if v = pa.1 ∨ v = pa.2 then pb else pa
    if otherLine.1 = v ∨ otherLine.2 = v then
      let angleFirst := ((mapGet fixed myLine.1).or (mapGet fixed myLine.2)).getD ⟨0, 0⟩
      let angleSecond := ((mapGet fixed otherLine.1).or (mapGet fixed otherLine.2)).getD ⟨0, 0⟩
      let isoscelesBase := pointDistance angleFirst angleSecond
      let isoscelesHeight := isoscelesBase / 2 / Real.tan angleRadians
      let direction := pointUnit (pointSubtract angleSecond angleFirst)
      if pointMagnitude (pointSubtract angleSecond angleFirst) = 0 then .void
      else
        let perpendicular : Position := ⟨-direction.y, direction.x⟩
        let centerPositive := linearSum
          [(1/2, angleFirst), (1/2, angleSecond), (isoscelesHeight, perpendicular)]
        let centerNegative := linearSum
          [(1/2, angleFirst), (1/2, angleSecond), (-isoscelesHeight, perpendicular)]
        let radius := pointDistance centerPositive angleFirst
        .union [.circle ⟨radius, centerNegative⟩, .circle ⟨radius, centerPositive⟩]
    else
      let p1Solution := mapGetD fixed otherLine.2
      let p0Solution := mapGetD fixed otherLine.1
      let otherLineDirection := pointSubtract p1Solution p0Solution
      if pointMagnitude otherLineDirection < eps then .plane
      else
        let otherLineRadians := atan2 otherLineDirection.y otherLineDirection.x
        let anglePositive := otherLineRadians + angleRadians
        let angleNegative := otherLineRadians - angleRadians
        let directionPositive : Position := ⟨Real.cos anglePositive, Real.sin anglePositive⟩
        let directionNegative : Position := ⟨Real.cos angleNegative, Real.sin angleNegative⟩
        let otherPoint := if myLine.1 = v then myLine.2 else myLine.1
        let otherPointPosition := mapGetD fixed otherPoint
        let lines : List Gamut := [
          .line ⟨otherPointPosition, linearSum [(1, otherPointPosition), (1, directionPositive)]⟩,
          .line ⟨otherPointPosition, linearSum [(1, otherPointPosition), (1, directionNegative)]⟩]
        let lines := if |angleRadians| ≤ eps ∨ |angleRadians - Real.pi / 2| ≤ eps
          then lines.dropLast else lines
        .union lines
  | .segmentDistance a b d =>
    if a = b.1 ∨ a = b.2 then .plane
    else if v = a then
      let f := mapGetD fixed b.1
      let t := mapGetD fixed b.2
      let parallel := pointUnit (pointSubtract t f)
      if pointMagnitude (pointSubtract t f) = 0 then .plane
      else
        let perpendicular : Position := ⟨-parallel.y, parallel.x⟩
        .union [
          .line ⟨linearSum [(1, f), (d, perpendicular)], linearSum [(1, t), (d, perpendicular)]⟩,
          .line ⟨linearSum [(1, f), (-d, perpendicular)], linearSum [(1, t), (-d, perpendicular)]⟩]
    else
      let aPos := mapGetD fixed a
      let bOther := mapGetD fixed (if v = b.1 then b.2 else b.1)
      let separationAB := pointSubtract aPos bOther
      let separationABDistance := pointMagnitude separationAB
      let perpendicular : Position := ⟨-separationAB.y, separationAB.x⟩
      if separationABDistance < eps then .plane
      else if |separationABDistance - d| < eps then
        .line ⟨bOther, linearSum [(1, bOther), (1, perpendicular)]⟩
      else if d / separationABDistance < -1 ∨ 1 < d / separationABDistance then .void
      else
        let theta := Real.arcsin (d / separationABDistance)
        .union [
          .line ⟨bOther, linearSum [(1, bOther), (1, separationAB),
            (Real.tan theta / separationABDistance, perpendicular)]⟩,
          .line ⟨bOther, linearSum [(1, bOther), (1, separationAB),
            (-(Real.tan theta / separationABDistance), perpendicular)]⟩]

/-- Result record of `solveLocal`: the intersected locus, the per-constraint
loci, and the intersection's freedom. -/
structure LocalSolution where
  intersection : Gamut
  constraints : List Gamut
  freedom : ℕ

/-- Source: `solveLocal` — fold the certain constraints' loci into one
intersection, keeping the individual loci for diagnostics. -/
noncomputable def solveLocal (v : String) (constraints : List Constraint)
    (solution : List (String × Position)) : LocalSolution :=
  let folded := constraints.foldl
    (fun (acc : Gamut × List Gamut) c =>
      let locus := localConstraintToGamut v c solution EPSILON
      (gamutGamutIntersection acc.1 locus EPSILON, acc.2 ++ [locus]))
    (Gamut.plane, [])
  ⟨folded.1, folded.2, gamutFreedom folded.1⟩

/-! ## The propagation solver (src/constraints.ts `solve`, src/data.ts
`sortedBy`) -/

/-- A stable insertion into a key-sorted list: the element goes before the
first resident whose key is not strictly smaller than its own.  Used under a
right fold, the residents come from later positions of the original list, so
elements of equal key keep their original order. -/
def insertKeyed {α κ : Type} [LinearOrder κ] (f : α → κ) (x : α) :
    List α → List α
  | [] => [x]
  | y :: ys => if f y < f x then y :: insertKeyed f x ys else x :: y :: ys

/-- Source: `sortedBy` (src/data.ts) — a stable sort by a numeric key.
ECMAScript `Array.prototype.sort` is stable, and a comparator result of NaN
(here: `Infinity - Infinity` for two void candidates) is treated as equality,
so equal-key elements keep their original order; a stable insertion sort over
a linearly ordered key models that. -/
def sortedBy {α κ : Type} [LinearOrder κ] (array : List α) (f : α → κ) : List α :=
  array.foldr (insertKeyed f) []

/-- One candidate row of a solve round: the variable, its local solution, and
its initial position. -/
structure SolveStep where
  variable_ : String
  localSolution : LocalSolution
  initialPoint : Position

/-- One entry of the solver's log: a candidate row plus the committed
position. -/
structure LogEntry where
  variable_ : String
  localSolution : LocalSolution
  initialPoint : Position
  solution : Position

/-- Source: `constraintIsCertainExcept` — no dependency other than `except`
is still unsolved. -/
def constraintIsCertainExcept (solution : List (String × Position))
    (constraint : Constraint) (except : String) : Bool :=
  ((constraintDependencies constraint).find?
    (fun d => decide (d ≠ except) && !mapHas solution d)).isNone

/-- Source: the per-round candidate collection of `solve`: every still
unsolved id, with the local solution of its certain constraints. -/
noncomputable def solveRemaining (initialPoints : List (String × Position))
    (constraints : List Constraint) (solution : List (String × Position)) :
    List SolveStep :=
  (initialPoints.filter (fun kv => !mapHas solution kv.1)).map (fun kv =>
    let relevant := constraints.filter
      (fun c => (constraintDependencies c).contains kv.1)
    let certain := relevant.filter
      (fun c => constraintIsCertainExcept solution c kv.1)
    ⟨kv.1, solveLocal kv.1 certain solution, kv.2⟩)

/-- Source: the sort key `r.localSolution.freedom === 0 ? Infinity :
r.localSolution.freedom`; the top element plays Infinity. -/
def sortKey (r : SolveStep) : WithTop ℕ :=
  if r.localSolution.freedom = 0 then ⊤ else (r.localSolution.freedom : WithTop ℕ)

/-- Source: the `while (solution.size < initialPoints.size)` loop of `solve`.
Each pass commits the most constrained candidate, so the loop ends after at
most one pass per point; the fuel argument makes that termination explicit
and `solve` supplies exactly `initialPoints.length` units of it.  The `none`
branch cannot be reached when the initial keys are distinct (the source would
crash there reading `byConstrainment[0]`). -/
noncomputable def solveGo (initialPoints : List (String × Position))
    (constraints : List Constraint) :
    ℕ → List (String × Position) → List LogEntry →
    List (String × Position) × List LogEntry
  | 0, solution, log => (solution, log)
  | fuel + 1, solution, log =>
    if solution.length < initialPoints.length then
      match (sortedBy (solveRemaining initialPoints constraints solution) sortKey).head? with
      | none => (solution, log)
      | some mostConstrained =>
        let nearest := (gamutNearest mostConstrained.localSolution.intersection
          mostConstrained.initialPoint).getD mostConstrained.initialPoint
        solveGo initialPoints constraints fuel
          (mapSet solution mostConstrained.variable_ nearest)
          (log ++ [⟨mostConstrained.variable_, mostConstrained.localSolution,
            mostConstrained.initialPoint, nearest⟩])
    else (solution, log)

/-- Source: `solve` — the public entry point, returning the committed
positions and the per-step log. -/
noncomputable def solve (initialPoints : List (String × Position))
    (constraints : List Constraint) :
    List (String × Position) × List LogEntry :=
  solveGo initialPoints constraints initialPoints.length [] []

/-! ## Structural lemmas about the locus algebra -/

theorem gamut_sizeOf_pos (g : Gamut) : 0 < sizeOf g := by
  cases g <;> simp

theorem gamutFreedomCoreList_eq_zero {l : List Gamut} :
    gamutFreedomCoreList l = 0 ↔ ∀ m ∈ l, gamutFreedomCore m = 0 := by
  induction l with
  | nil => simp [gamutFreedomCoreList]
  | cons e rest ih => simp [gamutFreedomCoreList, ih]

theorem gamutFreedomCore_pos {m : Gamut} (hu : m.isUnion = false)
    (hv : m.isVoid = false) : 0 < gamutFreedomCore m := by
  cases m <;> simp_all [Gamut.isUnion, Gamut.isVoid, gamutFreedomCore,
    ONE_DIMENSIONAL_FREEDOM]

/-- Joint flatness of `simplifyGamut` and `simplifyMembers`: a union produced
by simplification has no union member and no void member. -/
theorem simplify_flat_aux (n : ℕ) :
    (∀ g : Gamut, sizeOf g ≤ n → ∀ ms, simplifyGamut g = .union ms →
      ∀ m ∈ ms, m.isUnion = false ∧ m.isVoid = false) ∧
    (∀ l : List Gamut, sizeOf l ≤ n → ∀ m ∈ simplifyMembers l,
      m.isUnion = false ∧ m.isVoid = false) := by
  induction n using Nat.strong_induction_on with
  | _ n ih =>
    constructor
    · intro g hg ms hms m hm
      cases g with
      | union l =>
        have hl : sizeOf l + 1 ≤ n := by simp at hg; omega
        simp only [simplifyGamut] at hms
        rcases hsm : simplifyMembers l with _ | ⟨x, xs⟩
        · rw [hsm] at hms; simp at hms
        · rcases xs with _ | ⟨y, ys⟩
          · rw [hsm] at hms
            simp at hms
            have hx := (ih (n - 1) (by omega)).2 l (by omega) x (by rw [hsm]; simp)
            rw [hms] at hx
            simp [Gamut.isUnion] at hx
          · rw [hsm] at hms
            simp at hms
            exact (ih (n - 1) (by omega)).2 l (by omega) m
              (by rw [hsm]; rw [← hms] at hm; exact hm)
      | plane => simp [simplifyGamut] at hms
      | point p => simp [simplifyGamut] at hms
      | circle c => simp [simplifyGamut] at hms
      | line li => simp [simplifyGamut] at hms
      | void => simp [simplifyGamut] at hms
    · intro l hl m hm
      cases l with
      | nil => simp [simplifyMembers] at hm
      | cons e rest =>
        have he : 0 < sizeOf e := gamut_sizeOf_pos e
        have hsz : sizeOf e + sizeOf rest + 1 ≤ n := by simp at hl; omega
        rw [simplifyMembers] at hm
        rcases List.mem_append.1 hm with h1 | h2
        · rcases List.mem_filter.1 h1 with ⟨hbase, hnv⟩
          have hnv' : m.isVoid = false := by
            cases hmv : m.isVoid
            · rfl
            · rw [hmv] at hnv; simp at hnv
          refine ⟨?_, hnv'⟩
          rcases hse : simplifyGamut e with _ | p | c | li | mm | _ <;> rw [hse] at hbase
          · simp at hbase; rw [hbase]; rfl
          · simp at hbase; rw [hbase]; rfl
          · simp at hbase; rw [hbase]; rfl
          · simp at hbase; rw [hbase]; rfl
          · exact ((ih (n - 1) (by omega)).1 e (by omega) mm hse m hbase).1
          · simp at hbase; rw [hbase]; rfl
        · exact (ih (n - 1) (by omega)).2 rest (by omega) m h2

theorem simplifyMembers_flat (l : List Gamut) :
    ∀ m ∈ simplifyMembers l, m.isUnion = false ∧ m.isVoid = false :=
  (simplify_flat_aux (sizeOf l)).2 l le_rfl

theorem simplifyGamut_flat (g : Gamut) :
    ∀ ms, simplifyGamut g = .union ms →
      ∀ m ∈ ms, m.isUnion = false ∧ m.isVoid = false :=
  (simplify_flat_aux (sizeOf g)).1 g le_rfl

/-- A union produced by `simplifyGamut` always has at least two members. -/
theorem simplifyGamut_union_two {g : Gamut} {ms : List Gamut}
    (h : simplifyGamut g = .union ms) : 2 ≤ ms.length := by
  cases g with
  | union l =>
    simp only [simplifyGamut] at h
    rcases hsm : simplifyMembers l with _ | ⟨x, xs⟩
    · rw [hsm] at h; simp at h
    · rcases xs with _ | ⟨y, ys⟩
      · rw [hsm] at h
        simp at h
        have hx := simplifyMembers_flat l x (by rw [hsm]; simp)
        rw [h] at hx
        simp [Gamut.isUnion] at hx
      · rw [hsm] at h
        simp at h
        rw [← h]
        simp
  | plane => simp [simplifyGamut] at h
  | point p => simp [simplifyGamut] at h
  | circle c => simp [simplifyGamut] at h
  | line li => simp [simplifyGamut] at h
  | void => simp [simplifyGamut] at h

/-- Joint characterization: simplification collapses a gamut to void exactly
when the gamut is empty, and `simplifyMembers` yields the empty list exactly
when every member is empty. -/
theorem simplify_void_aux (n : ℕ) :
    (∀ g : Gamut, sizeOf g ≤ n → (simplifyGamut g = .void ↔ gamutEmpty g = true)) ∧
    (∀ l : List Gamut, sizeOf l ≤ n →
      (simplifyMembers l = [] ↔ gamutEmptyList l = true)) := by
  induction n using Nat.strong_induction_on with
  | _ n ih =>
    constructor
    · intro g hg
      cases g with
      | union l =>
        have hl : sizeOf l + 1 ≤ n := by simp at hg; omega
        have hlist := (ih (n - 1) (by omega)).2 l (by omega)
        rw [gamutEmpty, ← hlist]
        constructor
        · intro h
          simp only [simplifyGamut] at h
          rcases hsm : simplifyMembers l with _ | ⟨x, xs⟩
          · rfl
          · rcases xs with _ | ⟨y, ys⟩
            · rw [hsm] at h
              simp at h
              have hx := simplifyMembers_flat l x (by rw [hsm]; simp)
              rw [h] at hx
              simp [Gamut.isVoid] at hx
            · rw [hsm] at h; simp at h
        · intro h
          simp only [simplifyGamut]
          rw [h]
      | plane => simp [simplifyGamut, gamutEmpty]
      | point p => simp [simplifyGamut, gamutEmpty]
      | circle c => simp [simplifyGamut, gamutEmpty]
      | line li => simp [simplifyGamut, gamutEmpty]
      | void => simp [simplifyGamut, gamutEmpty]
    · intro l hl
      cases l with
      | nil => simp [simplifyMembers, gamutEmptyList]
      | cons e rest =>
        have he : 0 < sizeOf e := gamut_sizeOf_pos e
        have hsz : sizeOf e + sizeOf rest + 1 ≤ n := by simp at hl; omega
        have hrest := (ih (n - 1) (by omega)).2 rest (by omega)
        have hgam := (ih (n - 1) (by omega)).1 e (by omega)
        rw [simplifyMembers, gamutEmptyList, List.append_eq_nil, hrest]
        constructor
        · rintro ⟨h1, h2⟩
          rw [h2, Bool.and_true, ← hgam]
          rcases hse : simplifyGamut e with _ | p | c | li | mm | _ <;> rw [hse] at h1
          · simp [Gamut.isVoid] at h1
          · simp [Gamut.isVoid] at h1
          · simp [Gamut.isVoid] at h1
          · simp [Gamut.isVoid] at h1
          · exfalso
            have hflat := simplifyGamut_flat e mm hse
            have htwo := simplifyGamut_union_two hse
            rcases mm with _ | ⟨x, xs⟩
            · simp at htwo
            · have hx := (hflat x (by simp)).2
              have h1x : List.filter (fun g => !g.isVoid) (x :: xs) = [] := h1
              have hmem : x ∈ List.filter (fun g => !g.isVoid) (x :: xs) :=
                List.mem_filter.2 ⟨List.mem_cons_self x xs, by simp [hx]⟩
              rw [h1x] at hmem
              exact absurd hmem (List.not_mem_nil x)
        · intro h
          rw [Bool.and_eq_true] at h
          obtain ⟨h1, h2⟩ := h
          refine ⟨?_, h2⟩
          have hv : simplifyGamut e = .void := by rw [hgam]; exact h1
          rw [hv]
          simp [Gamut.isVoid]

theorem simplifyGamut_eq_void_iff (g : Gamut) :
    simplifyGamut g = .void ↔ gamutEmpty g = true :=
  (simplify_void_aux (sizeOf g)).1 g le_rfl

/-- The freedom score is zero exactly on empty gamuts. -/
theorem gamutFreedom_eq_zero_iff (g : Gamut) :
    gamutFreedom g = 0 ↔ gamutEmpty g = true := by
  cases g with
  | union l =>
    rw [gamutFreedom]
    constructor
    · intro h
      rcases hs : simplifyGamut (.union l) with _ | p | c | li | ms | _ <;> rw [hs] at h
      · simp [gamutFreedomCore, ONE_DIMENSIONAL_FREEDOM] at h
      · simp [gamutFreedomCore] at h
      · simp [gamutFreedomCore, ONE_DIMENSIONAL_FREEDOM] at h
      · simp [gamutFreedomCore, ONE_DIMENSIONAL_FREEDOM] at h
      · exfalso
        have hflat := simplifyGamut_flat _ ms hs
        have htwo := simplifyGamut_union_two hs
        rcases ms with _ | ⟨x, xs⟩
        · simp at htwo
        · have hx := gamutFreedomCore_pos (hflat x (by simp)).1 (hflat x (by simp)).2
          rw [gamutFreedomCore] at h
          have := gamutFreedomCoreList_eq_zero.mp h x (by simp)
          omega
      · exact (simplifyGamut_eq_void_iff _).mp hs
    · intro h
      rw [(simplifyGamut_eq_void_iff (.union l)).mpr h]
      rfl
  | plane => simp [gamutFreedom, gamutFreedomCore, gamutEmpty, ONE_DIMENSIONAL_FREEDOM]
  | point p => simp [gamutFreedom, gamutFreedomCore, gamutEmpty]
  | circle c => simp [gamutFreedom, gamutFreedomCore, gamutEmpty, ONE_DIMENSIONAL_FREEDOM]
  | line li => simp [gamutFreedom, gamutFreedomCore, gamutEmpty, ONE_DIMENSIONAL_FREEDOM]
  | void => simp [gamutFreedom, gamutFreedomCore, gamutEmpty]

/-- An empty gamut has no nearest position, and an all-empty member list
leaves the running best of the union fold untouched. -/
theorem gamutEmpty_nearest_aux (n : ℕ) :
    (∀ g : Gamut, sizeOf g ≤ n → gamutEmpty g = true →
      ∀ q, gamutNearest g q = none) ∧
    (∀ l : List Gamut, sizeOf l ≤ n → gamutEmptyList l = true →
      ∀ q best, gamutNearestList l q best = best) := by
  induction n using Nat.strong_induction_on with
  | _ n ih =>
    constructor
    · intro g hg hemp q
      cases g with
      | union l =>
        have hl : sizeOf l + 1 ≤ n := by simp at hg; omega
        rw [gamutEmpty] at hemp
        rw [gamutNearest]
        exact (ih (n - 1) (by omega)).2 l (by omega) hemp q none
      | void => rfl
      | plane => simp [gamutEmpty] at hemp
      | point p => simp [gamutEmpty] at hemp
      | circle c => simp [gamutEmpty] at hemp
      | line li => simp [gamutEmpty] at hemp
    · intro l hl hemp q best
      cases l with
      | nil => rfl
      | cons e rest =>
        have he : 0 < sizeOf e := gamut_sizeOf_pos e
        have hsz : sizeOf e + sizeOf rest + 1 ≤ n := by simp at hl; omega
        rw [gamutEmptyList, Bool.and_eq_true] at hemp
        obtain ⟨h1, h2⟩ := hemp
        rw [gamutNearestList]
        rw [(ih (n - 1) (by omega)).1 e (by omega) h1 q]
        exact (ih (n - 1) (by omega)).2 rest (by omega) h2 q best

theorem gamutEmpty_nearest {g : Gamut} (h : gamutEmpty g = true) (q : Position) :
    gamutNearest g q = none :=
  (gamutEmpty_nearest_aux (sizeOf g)).1 g le_rfl h q

/-! ## Lemmas about the stable sort -/

/-- The first element of a list attaining the minimal key: what a stable
ascending sort puts in front. -/
def firstMin {α κ : Type} [LinearOrder κ] (f : α → κ) : List α → Option α
  | [] => none
  | x :: xs =>
    match firstMin f xs with
    | none => some x
    | some m => if f m < f x then some m else some x

theorem length_insertKeyed {α κ : Type} [LinearOrder κ] (f : α → κ) (x : α)
    (l : List α) : (insertKeyed f x l).length = l.length + 1 := by
  induction l with
  | nil => rfl
  | cons y ys ih =>
    rw [insertKeyed]
    by_cases h : f y < f x
    · rw [if_pos h]
      simp [ih]
    · rw [if_neg h]
      simp

theorem length_sortedBy {α κ : Type} [LinearOrder κ] (l : List α) (f : α → κ) :
    (sortedBy l f).length = l.length := by
  induction l with
  | nil => rfl
  | cons x xs ih =>
    have : sortedBy (x :: xs) f = insertKeyed f x (sortedBy xs f) := rfl
    rw [this, length_insertKeyed, ih]
    rfl

theorem mem_insertKeyed {α κ : Type} [LinearOrder κ] (f : α → κ) (x a : α)
    (l : List α) : a ∈ insertKeyed f x l ↔ a = x ∨ a ∈ l := by
  induction l with
  | nil => simp [insertKeyed]
  | cons y ys ih =>
    rw [insertKeyed]
    by_cases h : f y < f x
    · rw [if_pos h]
      simp [ih]
      tauto
    · rw [if_neg h]
      simp

theorem mem_sortedBy {α κ : Type} [LinearOrder κ] (l : List α) (f : α → κ)
    (a : α) : a ∈ sortedBy l f ↔ a ∈ l := by
  induction l with
  | nil => simp [sortedBy]
  | cons x xs ih =>
    have : sortedBy (x :: xs) f = insertKeyed f x (sortedBy xs f) := rfl
    rw [this, mem_insertKeyed]
    simp [ih]

theorem sortedBy_head?_eq_firstMin {α κ : Type} [LinearOrder κ] (f : α → κ)
    (l : List α) : (sortedBy l f).head? = firstMin f l := by
  induction l with
  | nil => rfl
  | cons x xs ih =>
    have hs : sortedBy (x :: xs) f = insertKeyed f x (sortedBy xs f) := rfl
    rw [hs, firstMin]
    rcases hxs : sortedBy xs f with _ | ⟨m, rest⟩
    · rw [hxs] at ih
      rw [← ih]
      rfl
    · rw [hxs] at ih
      rw [← ih]
      rw [insertKeyed]
      by_cases h : f m < f x
      · rw [if_pos h]
        simp [h]
      · rw [if_neg h]
        simp [h]

theorem firstMin_eq_none {α κ : Type} [LinearOrder κ] (f : α → κ) (l : List α) :
    firstMin f l = none ↔ l = [] := by
  cases l with
  | nil => simp [firstMin]
  | cons x xs =>
    rw [firstMin]
    rcases h : firstMin f xs with _ | m
    · simp
    · by_cases hlt : f m < f x <;> simp [hlt]

theorem firstMin_mem {α κ : Type} [LinearOrder κ] {f : α → κ} {l : List α}
    {m : α} (h : firstMin f l = some m) : m ∈ l := by
  induction l generalizing m with
  | nil => simp [firstMin] at h
  | cons x xs ih =>
    rw [firstMin] at h
    rcases hxs : firstMin f xs with _ | m'
    · rw [hxs] at h
      simp at h
      rw [h]
      simp
    · rw [hxs] at h
      have h2 : (if f m' < f x then some m' else some x) = some m := h
      by_cases hlt : f m' < f x
      · rw [if_pos hlt] at h2
        simp at h2
        rw [← h2]
        exact List.mem_cons_of_mem x (ih hxs)
      · rw [if_neg hlt] at h2
        simp at h2
        rw [← h2]
        simp

theorem firstMin_le {α κ : Type} [LinearOrder κ] {f : α → κ} {l : List α}
    {m : α} (h : firstMin f l = some m) : ∀ c ∈ l, f m ≤ f c := by
  induction l generalizing m with
  | nil => simp [firstMin] at h
  | cons x xs ih =>
    rw [firstMin] at h
    rcases hxs : firstMin f xs with _ | m'
    · rw [hxs] at h
      simp at h
      have hnil := (firstMin_eq_none f xs).mp hxs
      rw [h, hnil]
      intro c hc
      simp at hc
      rw [hc]
    · rw [hxs] at h
      have h2 : (if f m' < f x then some m' else some x) = some m := h
      intro c hc
      rcases List.mem_cons.mp hc with hcx | hcxs
      · by_cases hlt : f m' < f x
        · rw [if_pos hlt] at h2
          simp at h2
          subst h2
          rw [hcx]
          exact le_of_lt hlt
        · rw [if_neg hlt] at h2
          simp at h2
          subst h2
          rw [hcx]
      · by_cases hlt : f m' < f x
        · rw [if_pos hlt] at h2
          simp at h2
          rw [← h2]
          exact ih hxs c hcxs
        · rw [if_neg hlt] at h2
          simp at h2
          rw [← h2]
          exact le_trans (not_lt.mp hlt) (ih hxs c hcxs)

theorem firstMin_first {α κ : Type} [LinearOrder κ] {f : α → κ} {l : List α}
    {m : α} (h : firstMin f l = some m) :
    ∃ l₁ l₂, l = l₁ ++ m :: l₂ ∧ ∀ c ∈ l₁, f m < f c := by
  induction l generalizing m with
  | nil => simp [firstMin] at h
  | cons x xs ih =>
    rw [firstMin] at h
    rcases hxs : firstMin f xs with _ | m'
    · rw [hxs] at h
      simp at h
      exact ⟨[], xs, by rw [h]; rfl, by simp⟩
    · rw [hxs] at h
      have h2 : (if f m' < f x then some m' else some x) = some m := h
      by_cases hlt : f m' < f x
      · rw [if_pos hlt] at h2
        simp at h2
        rw [← h2]
        obtain ⟨l₁, l₂, heq, hstrict⟩ := ih hxs
        refine ⟨x :: l₁, l₂, by simp [heq], ?_⟩
        intro c hc
        rcases List.mem_cons.mp hc with hcx | hcl
        · rw [hcx]
          exact hlt
        · exact hstrict c hcl
      · rw [if_neg hlt] at h2
        simp at h2
        rw [← h2]
        exact ⟨[], xs, rfl, by simp⟩

theorem sortedBy_key_const {α κ : Type} [LinearOrder κ] {f : α → κ} {k : κ}
    {l : List α} (h : ∀ a ∈ l, f a = k) : sortedBy l f = l := by
  induction l with
  | nil => rfl
  | cons x xs ih =>
    have hs : sortedBy (x :: xs) f = insertKeyed f x (sortedBy xs f) := rfl
    rw [hs, ih (fun a ha => h a (List.mem_cons_of_mem x ha))]
    cases xs with
    | nil => rfl
    | cons y ys =>
      rw [insertKeyed]
      rw [h x (by simp), h y (by simp)]
      simp

/-! ## Lemmas about the insertion-ordered map and the solve loop -/

def keys (m : List (String × Position)) : List String := m.map Prod.fst

theorem mapHas_iff_mem_keys (m : List (String × Position)) (k : String) :
    mapHas m k = true ↔ k ∈ keys m := by
  constructor
  · intro h
    rcases hf : List.find? (fun kv => decide (kv.1 = k)) m with _ | kv
    · rw [mapHas, mapGet, hf] at h
      simp at h
    · have hp := List.find?_some hf
      have hmem := List.mem_of_find?_eq_some hf
      simp at hp
      rw [keys, ← hp]
      exact List.mem_map_of_mem Prod.fst hmem
  · intro h
    rcases List.mem_map.mp h with ⟨kv, hmem, hfst⟩
    rw [mapHas, mapGet]
    rcases hf : List.find? (fun kv => decide (kv.1 = k)) m with _ | kv2
    · rw [List.find?_eq_none] at hf
      have := hf kv hmem
      simp [hfst] at this
    · simp
      exact ⟨kv.2, by rw [← hfst]; exact hmem⟩

theorem mapHas_of_mem {m : List (String × Position)} {kv : String × Position}
    (h : kv ∈ m) : mapHas m kv.1 = true :=
  (mapHas_iff_mem_keys m kv.1).mpr (List.mem_map_of_mem Prod.fst h)

theorem mapHas_false_iff (m : List (String × Position)) (k : String) :
    mapHas m k = false ↔ k ∉ keys m := by
  rw [← mapHas_iff_mem_keys]
  cases h : mapHas m k <;> simp

theorem mapSet_new {m : List (String × Position)} {k : String} {v : Position}
    (h : mapHas m k = false) : mapSet m k v = m ++ [(k, v)] := by
  rw [mapSet, if_neg]
  rw [h]
  simp

theorem keys_append (m₁ m₂ : List (String × Position)) :
    keys (m₁ ++ m₂) = keys m₁ ++ keys m₂ := by
  simp [keys]

theorem length_keys (m : List (String × Position)) : (keys m).length = m.length := by
  simp [keys]

/-- With duplicate-free keys on both sides, a key-subset map is no longer than
its superset (the JavaScript `Map.size` comparison of the solve loop). -/
theorem length_le_of_keys_subset {m₁ m₂ : List (String × Position)}
    (hsub : ∀ k ∈ keys m₁, k ∈ keys m₂) (hnod₁ : (keys m₁).Nodup)
    (hnod₂ : (keys m₂).Nodup) : m₁.length ≤ m₂.length := by
  rw [← length_keys m₁, ← length_keys m₂]
  rw [← List.toFinset_card_of_nodup hnod₁, ← List.toFinset_card_of_nodup hnod₂]
  apply Finset.card_le_card
  intro k hk
  rw [List.mem_toFinset] at hk ⊢
  exact hsub k hk

/-- Shape of the candidates of a round: each comes from an unsolved entry of
the initial map, and its freedom field is the freedom of its intersection. -/
theorem mem_solveRemaining {initial : List (String × Position)}
    {cs : List Constraint} {sol : List (String × Position)} {r : SolveStep}
    (h : r ∈ solveRemaining initial cs sol) :
    (r.variable_, r.initialPoint) ∈ initial ∧ mapHas sol r.variable_ = false ∧
      r.localSolution.freedom = gamutFreedom r.localSolution.intersection := by
  rw [solveRemaining] at h
  rcases List.mem_map.mp h with ⟨kv, hmem, heq⟩
  rcases List.mem_filter.mp hmem with ⟨hinit, hhas⟩
  have hvar : r.variable_ = kv.1 := by rw [← heq]
  have hip : r.initialPoint = kv.2 := by rw [← heq]
  refine ⟨?_, ?_, ?_⟩
  · rw [hvar, hip]
    exact hinit
  · rw [hvar]
    cases hm : mapHas sol kv.1
    · rfl
    · rw [hm] at hhas
      simp at hhas
  · rw [← heq]
    rfl

/-- When the initial keys are duplicate-free and the partial solution's keys
are a duplicate-free subset of them, an incomplete solution leaves at least
one candidate. -/
theorem solveRemaining_ne_nil {initial : List (String × Position)}
    {cs : List Constraint} {sol : List (String × Position)}
    (hnodI : (keys initial).Nodup) (_hsub : ∀ k ∈ keys sol, k ∈ keys initial)
    (hnodS : (keys sol).Nodup) (hlt : sol.length < initial.length) :
    solveRemaining initial cs sol ≠ [] := by
  rw [solveRemaining]
  intro hnil
  rw [List.map_eq_nil_iff] at hnil
  rw [List.filter_eq_nil_iff] at hnil
  have hsub2 : ∀ k ∈ keys initial, k ∈ keys sol := by
    intro k hk
    rcases List.mem_map.mp hk with ⟨kv, hmem, hfst⟩
    have := hnil kv hmem
    simp at this
    rw [← hfst]
    exact (mapHas_iff_mem_keys sol kv.1).mp this
  have := length_le_of_keys_subset hsub2 hnodI hnodS
  omega

/-- One step of the solve loop with an incomplete solution: the head of the
sorted candidate list (which exists) is committed. -/
theorem solveGo_step {initial : List (String × Position)} {cs : List Constraint}
    {sol : List (String × Position)} {log : List LogEntry} {fuel : ℕ}
    {mc : SolveStep}
    (hlt : sol.length < initial.length)
    (hhead : (sortedBy (solveRemaining initial cs sol) sortKey).head? = some mc) :
    solveGo initial cs (fuel + 1) sol log =
      solveGo initial cs fuel
        (mapSet sol mc.variable_
          ((gamutNearest mc.localSolution.intersection mc.initialPoint).getD
            mc.initialPoint))
        (log ++ [⟨mc.variable_, mc.localSolution, mc.initialPoint,
          (gamutNearest mc.localSolution.intersection mc.initialPoint).getD
            mc.initialPoint⟩]) := by
  rw [solveGo, if_pos hlt, hhead]

/-- The solve loop runs to completion: with enough fuel (one unit per missing
point) it ends with one committed position per initial entry and exactly one
log entry per pass. -/
theorem solveGo_complete (initial : List (String × Position))
    (cs : List Constraint) (hnodI : (keys initial).Nodup) :
    ∀ (fuel : ℕ) (sol : List (String × Position)) (log : List LogEntry),
    (∀ k ∈ keys sol, k ∈ keys initial) → (keys sol).Nodup →
    initial.length ≤ sol.length + fuel →
    (solveGo initial cs fuel sol log).1.length = initial.length ∧
      (solveGo initial cs fuel sol log).2.length =
        log.length + (initial.length - sol.length) := by
  intro fuel
  induction fuel with
  | zero =>
    intro sol log hsub hnodS hle
    have hges := length_le_of_keys_subset hsub hnodS hnodI
    rw [solveGo]
    refine ⟨?_, ?_⟩ <;> simp <;> omega
  | succ fuel ih =>
    intro sol log hsub hnodS hle
    have hges := length_le_of_keys_subset hsub hnodS hnodI
    by_cases hlt : sol.length < initial.length
    · have hne : solveRemaining initial cs sol ≠ [] :=
        solveRemaining_ne_nil hnodI hsub hnodS hlt
      have hsne : sortedBy (solveRemaining initial cs sol) sortKey ≠ [] := by
        intro hcon
        apply hne
        have := length_sortedBy (solveRemaining initial cs sol) sortKey
        rw [hcon] at this
        simp at this
        exact List.length_eq_zero.mp this.symm
      rcases hh : (sortedBy (solveRemaining initial cs sol) sortKey).head? with _ | mc
      · rw [List.head?_eq_none_iff] at hh
        exact absurd hh hsne
      · have hmem : mc ∈ solveRemaining initial cs sol := by
          rw [← mem_sortedBy _ sortKey]
          cases hl : sortedBy (solveRemaining initial cs sol) sortKey with
          | nil => exact absurd hl hsne
          | cons a as =>
            rw [hl] at hh
            simp at hh
            rw [← hh]
            simp
        obtain ⟨hinit, hhas, _⟩ := mem_solveRemaining hmem
        rw [solveGo_step hlt hh]
        rw [mapSet_new hhas]
        have hvmem : mc.variable_ ∈ keys initial :=
          List.mem_map_of_mem Prod.fst hinit
        have hnotin : mc.variable_ ∉ keys sol := (mapHas_false_iff sol _).mp hhas
        have h1 := ih (sol ++ [(mc.variable_,
            (gamutNearest mc.localSolution.intersection mc.initialPoint).getD
              mc.initialPoint)])
          (log ++ [⟨mc.variable_, mc.localSolution, mc.initialPoint,
            (gamutNearest mc.localSolution.intersection mc.initialPoint).getD
              mc.initialPoint⟩])
          (by
            intro k hk
            rw [keys_append] at hk
            rcases List.mem_append.mp hk with hk | hk
            · exact hsub k hk
            · simp [keys] at hk
              rw [hk]
              exact hvmem)
          (by
            rw [keys_append]
            apply List.Nodup.append hnodS (by simp [keys])
            intro a ha hb
            simp [keys] at hb
            rw [hb] at ha
            exact hnotin ha)
          (by simp; omega)
        rw [h1.1, h1.2]
        constructor
        · rfl
        · simp
          omega
    · rw [solveGo, if_neg hlt]
      refine ⟨?_, ?_⟩ <;> simp <;> omega

/-- With no constraints every candidate's local solution is the whole plane
with full freedom. -/
theorem solveLocal_nil (v : String) (sol : List (String × Position)) :
    solveLocal v [] sol = ⟨.plane, [], ONE_DIMENSIONAL_FREEDOM ^ 2⟩ := rfl

theorem sortKey_plane (v : String) (ip : Position) :
    sortKey ⟨v, ⟨.plane, [], ONE_DIMENSIONAL_FREEDOM ^ 2⟩, ip⟩ =
      ((ONE_DIMENSIONAL_FREEDOM ^ 2 : ℕ) : WithTop ℕ) := by
  rw [sortKey, if_neg]
  simp [ONE_DIMENSIONAL_FREEDOM]

/-- Splitting a solved prefix: the unsolved entries of `pre ++ suf` relative
to the solution `pre` are exactly `suf`, when all keys are distinct. -/
theorem filter_unsolved (pre suf : List (String × Position))
    (h : (keys (pre ++ suf)).Nodup) :
    (pre ++ suf).filter (fun kv => !mapHas pre kv.1) = suf := by
  rw [List.filter_append]
  rw [keys_append] at h
  have h1 : pre.filter (fun kv => !mapHas pre kv.1) = [] := by
    rw [List.filter_eq_nil_iff]
    intro kv hkv
    rw [mapHas_of_mem hkv]
    simp
  have h2 : suf.filter (fun kv => !mapHas pre kv.1) = suf := by
    rw [List.filter_eq_self]
    intro kv hkv
    have hnot : kv.1 ∉ keys pre := by
      intro hin
      have hd := (List.nodup_append.mp h).2.2
      exact hd hin (List.mem_map_of_mem Prod.fst hkv)
    rw [(mapHas_false_iff pre kv.1).mpr hnot]
    rfl
  rw [h1, h2]
  rfl

/-- The whole no-constraint run: starting from the solved prefix `pre`, each
pass commits the next entry of `suf` at its own initial position and logs a
full-freedom plane step for it. -/
theorem solveGo_no_constraints :
    ∀ (suf pre : List (String × Position)) (log : List LogEntry),
    (keys (pre ++ suf)).Nodup →
    solveGo (pre ++ suf) [] suf.length pre log =
      (pre ++ suf, log ++ suf.map (fun kv =>
        ⟨kv.1, ⟨.plane, [], ONE_DIMENSIONAL_FREEDOM ^ 2⟩, kv.2, kv.2⟩)) := by
  intro suf
  induction suf with
  | nil =>
    intro pre log _
    simp only [List.length_nil, List.append_nil]
    rw [solveGo]
    simp
  | cons kv suf ih =>
    intro pre log h
    have hlt : pre.length < (pre ++ kv :: suf).length := by simp
    have hrem : solveRemaining (pre ++ kv :: suf) [] pre =
        (kv :: suf).map (fun kv =>
          ⟨kv.1, ⟨.plane, [], ONE_DIMENSIONAL_FREEDOM ^ 2⟩, kv.2⟩) := by
      rw [solveRemaining, filter_unsolved pre (kv :: suf) h]
      rfl
    have hconst : ∀ a ∈ solveRemaining (pre ++ kv :: suf) [] pre,
        sortKey a = ((ONE_DIMENSIONAL_FREEDOM ^ 2 : ℕ) : WithTop ℕ) := by
      intro a ha
      rw [hrem] at ha
      rcases List.mem_map.mp ha with ⟨kv2, _, heq⟩
      rw [← heq]
      exact sortKey_plane kv2.1 kv2.2
    have hsorted := sortedBy_key_const hconst
    have hhead : (sortedBy (solveRemaining (pre ++ kv :: suf) [] pre)
        sortKey).head? = some ⟨kv.1, ⟨.plane, [], ONE_DIMENSIONAL_FREEDOM ^ 2⟩, kv.2⟩ := by
      rw [hsorted, hrem]
      rfl
    rw [show (kv :: suf).length = suf.length + 1 from rfl]
    rw [solveGo_step hlt hhead]
    have hnear : (gamutNearest Gamut.plane kv.2).getD kv.2 = kv.2 := rfl
    simp only [hnear]
    have hhas : mapHas pre kv.1 = false := by
      rw [mapHas_false_iff]
      rw [keys_append] at h
      intro hin
      have hd := (List.nodup_append.mp h).2.2
      exact hd hin (by simp [keys])
    rw [mapSet_new hhas]
    have hassoc : pre ++ kv :: suf = (pre ++ [(kv.1, kv.2)]) ++ suf := by simp
    rw [hassoc]
    have hih := ih (pre ++ [(kv.1, kv.2)]) (log ++ [⟨kv.1,
      ⟨.plane, [], ONE_DIMENSIONAL_FREEDOM ^ 2⟩, kv.2, kv.2⟩])
      (by rw [← hassoc]; exact h)
    rw [hih]
    simp

/-- CLAIM C9 (confirmed).  `solve` terminates on every input: the loop
commits exactly one previously unsolved variable per pass — so the fuel of
one unit per initial entry suffices — and ends with a complete solution (one
position per initial id) and one log entry per pass. -/
theorem solve_terminates (initial : List (String × Position))
    (cs : List Constraint) (hnod : (keys initial).Nodup) :
    (solve initial cs).1.length = initial.length ∧
      (solve initial cs).2.length = initial.length := by
  have h := solveGo_complete initial cs hnod initial.length [] []
    (by intro k hk; simp [keys] at hk) (by simp [keys]) (by simp)
  rw [solve]
  refine ⟨h.1, ?_⟩
  rw [h.2]
  simp

/-- Witness for C9 at a concrete input. -/
theorem solve_terminates_witness :
    (solve [("p", (⟨7, 11⟩ : Position))] []).1.length = 1 ∧
      (solve [("p", (⟨7, 11⟩ : Position))] []).2.length = 1 :=
  solve_terminates [("p", ⟨7, 11⟩)] [] (by simp [keys])

/-- CLAIM C8 (corrected).  `solve(initial, [])` returns the initial
association list itself, and the log holds exactly one full-freedom plane
entry per id committed at its initial position; no id is marked arbitrary
because the current solver has no arbitrary set at all. -/
theorem solve_no_constraints (initial : List (String × Position))
    (hnod : (keys initial).Nodup) :
    (solve initial []).1 = initial ∧
      (solve initial []).2 = initial.map (fun kv =>
        ⟨kv.1, ⟨.plane, [], ONE_DIMENSIONAL_FREEDOM ^ 2⟩, kv.2, kv.2⟩) := by
  have h := solveGo_no_constraints initial [] [] (by simpa using hnod)
  rw [List.nil_append] at h
  rw [solve, h]
  exact ⟨rfl, by simp⟩

/-- Witness for C8 at a concrete input. -/
theorem solve_no_constraints_witness :
    (solve [("p", (⟨7, 11⟩ : Position))] []).1 = [("p", (⟨7, 11⟩ : Position))] ∧
      (solve [("p", (⟨7, 11⟩ : Position))] []).2 =
        [⟨"p", ⟨.plane, [], ONE_DIMENSIONAL_FREEDOM ^ 2⟩, ⟨7, 11⟩, ⟨7, 11⟩⟩] :=
  solve_no_constraints [("p", ⟨7, 11⟩)] (by simp [keys])

/-- COUNTEREXAMPLE to CLAIM C8 as stated: on `initial = {p: (7,11)}` with no
constraints the log is not empty — the solver logs one entry for `p` — and
the returned record has no arbitrary set to mark `p` in. -/
theorem solve_no_constraints_cex :
    (solve [("p", (⟨7, 11⟩ : Position))] []).2.length = 1 := by
  have h := solveGo_no_constraints [("p", (⟨7, 11⟩ : Position))] [] []
    (by simp [keys])
  rw [List.nil_append] at h
  rw [solve, h]
  rfl

/-- CLAIM C1 (corrected).  In a round where every unsolved candidate's local
intersection is void (freedom 0), the solver does not fall back to committing
all remaining ids at once: it commits only the first remaining id (in
initial-map order) — every void key sorts as Infinity, the sort is stable,
and `gamutNearest` of the empty intersection yields nothing, so the initial
position is used — it appends a per-step log entry for that id, the loop
continues, and no id is marked arbitrary (the record has no arbitrary set). -/
theorem solveGo_all_void_round (initial : List (String × Position))
    (cs : List Constraint) (sol : List (String × Position)) (log : List LogEntry)
    (fuel : ℕ) (r : SolveStep) (rs : List SolveStep)
    (hrem : solveRemaining initial cs sol = r :: rs)
    (hall : ∀ c ∈ solveRemaining initial cs sol, c.localSolution.freedom = 0)
    (hlt : sol.length < initial.length) :
    solveGo initial cs (fuel + 1) sol log =
      solveGo initial cs fuel (mapSet sol r.variable_ r.initialPoint)
        (log ++ [⟨r.variable_, r.localSolution, r.initialPoint, r.initialPoint⟩]) := by
  have hkeys : ∀ c ∈ solveRemaining initial cs sol, sortKey c = (⊤ : WithTop ℕ) := by
    intro c hc
    rw [sortKey, if_pos (hall c hc)]
  have hsorted := sortedBy_key_const hkeys
  have hhead : (sortedBy (solveRemaining initial cs sol) sortKey).head? = some r := by
    rw [hsorted, hrem]
    rfl
  have hr : r ∈ solveRemaining initial cs sol := by
    rw [hrem]
    simp
  obtain ⟨_, _, hfr⟩ := mem_solveRemaining hr
  have hz : gamutFreedom r.localSolution.intersection = 0 := by
    rw [← hfr]
    exact hall r hr
  have hemp := (gamutFreedom_eq_zero_iff _).mp hz
  have hnone := gamutEmpty_nearest hemp r.initialPoint
  rw [solveGo_step hlt hhead, hnone]
  rfl

/-- Evaluation of the point-point intersection of the two contradictory
fixed loci used by the C1 and C2 instances. -/
theorem gamutGamut_far_points :
    gamutGamutIntersection (.point ⟨0, 0⟩) (.point ⟨5, 0⟩) EPSILON = .void := by
  have hd : pointDistance ⟨0, 0⟩ ⟨5, 0⟩ = 5 := by
    rw [pointDistance]
    rw [show ((5 : ℝ) - 0) ^ 2 + ((0 : ℝ) - 0) ^ 2 = 5 ^ 2 by norm_num]
    exact Real.sqrt_sq (by norm_num)
  have e : gamutGamutIntersection (.point ⟨0, 0⟩) (.point ⟨5, 0⟩) EPSILON =
      if pointDistance ⟨0, 0⟩ ⟨5, 0⟩ > EPSILON then .void else .point ⟨5, 0⟩ := rfl
  rw [e, if_pos]
  rw [hd, EPSILON]
  norm_num

/-- Evaluation of the local solution of `p` under the two contradictory
fixed constraints: the intersection is void with freedom 0. -/
theorem solveLocal_contradictory_fixed :
    solveLocal "p" [Constraint.fixed "p" ⟨0, 0⟩, Constraint.fixed "p" ⟨5, 0⟩] [] =
      ⟨.void, [.point ⟨0, 0⟩, .point ⟨5, 0⟩], 0⟩ := by
  have e : solveLocal "p" [Constraint.fixed "p" ⟨0, 0⟩, Constraint.fixed "p" ⟨5, 0⟩] [] =
      ⟨gamutGamutIntersection (.point ⟨0, 0⟩) (.point ⟨5, 0⟩) EPSILON,
        [.point ⟨0, 0⟩, .point ⟨5, 0⟩],
        gamutFreedom (gamutGamutIntersection (.point ⟨0, 0⟩) (.point ⟨5, 0⟩) EPSILON)⟩ := rfl
  rw [e, gamutGamut_far_points]
  rfl

/-- Evaluation of the single candidate of the C1 instance's first round. -/
theorem solveRemaining_contradictory_fixed :
    solveRemaining [("p", (⟨0, 0⟩ : Position))]
      [Constraint.fixed "p" ⟨0, 0⟩, Constraint.fixed "p" ⟨5, 0⟩] [] =
      [⟨"p", ⟨.void, [.point ⟨0, 0⟩, .point ⟨5, 0⟩], 0⟩, ⟨0, 0⟩⟩] := by
  have e : solveRemaining [("p", (⟨0, 0⟩ : Position))]
      [Constraint.fixed "p" ⟨0, 0⟩, Constraint.fixed "p" ⟨5, 0⟩] [] =
      [⟨"p", solveLocal "p" [Constraint.fixed "p" ⟨0, 0⟩, Constraint.fixed "p" ⟨5, 0⟩] [],
        ⟨0, 0⟩⟩] := rfl
  rw [e, solveLocal_contradictory_fixed]

/-- Witness for C1 at a concrete input: one point with two contradictory
fixed constraints; its candidate is void, and the round commits it at its
initial position while logging it. -/
theorem solveGo_all_void_round_witness :
    solveGo [("p", (⟨0, 0⟩ : Position))]
        [Constraint.fixed "p" ⟨0, 0⟩, Constraint.fixed "p" ⟨5, 0⟩] (0 + 1) [] [] =
      solveGo [("p", (⟨0, 0⟩ : Position))]
        [Constraint.fixed "p" ⟨0, 0⟩, Constraint.fixed "p" ⟨5, 0⟩] 0
        (mapSet [] "p" ⟨0, 0⟩)
        ([] ++ [⟨"p", ⟨.void, [.point ⟨0, 0⟩, .point ⟨5, 0⟩], 0⟩, ⟨0, 0⟩, ⟨0, 0⟩⟩]) :=
  solveGo_all_void_round [("p", ⟨0, 0⟩)]
    [Constraint.fixed "p" ⟨0, 0⟩, Constraint.fixed "p" ⟨5, 0⟩] [] [] 0
    ⟨"p", ⟨.void, [.point ⟨0, 0⟩, .point ⟨5, 0⟩], 0⟩, ⟨0, 0⟩⟩ []
    solveRemaining_contradictory_fixed
    (by
      rw [solveRemaining_contradictory_fixed]
      intro c hc
      simp at hc
      rw [hc])
    (by simp)

/-- COUNTEREXAMPLE to CLAIM C1 as stated: on one point with two contradictory
fixed constraints, every candidate of the first round is void, yet the solver
logs a per-step entry for the void-committed id (the log ends up with one
entry, not zero), and the result carries no arbitrary set. -/
theorem solveGo_all_void_round_cex :
    ((solveRemaining [("p", (⟨0, 0⟩ : Position))]
        [Constraint.fixed "p" ⟨0, 0⟩, Constraint.fixed "p" ⟨5, 0⟩] []).all
      (fun r => r.localSolution.freedom == 0)) = true ∧
    (solve [("p", (⟨0, 0⟩ : Position))]
        [Constraint.fixed "p" ⟨0, 0⟩, Constraint.fixed "p" ⟨5, 0⟩]).2.length = 1 := by
  constructor
  · rw [solveRemaining_contradictory_fixed]
    rfl
  · have hstep : solve [("p", (⟨0, 0⟩ : Position))]
        [Constraint.fixed "p" ⟨0, 0⟩, Constraint.fixed "p" ⟨5, 0⟩] =
        solveGo [("p", (⟨0, 0⟩ : Position))]
          [Constraint.fixed "p" ⟨0, 0⟩, Constraint.fixed "p" ⟨5, 0⟩] (0 + 1) [] [] := rfl
    have hhead : (sortedBy (solveRemaining [("p", (⟨0, 0⟩ : Position))]
        [Constraint.fixed "p" ⟨0, 0⟩, Constraint.fixed "p" ⟨5, 0⟩] []) sortKey).head? =
        some ⟨"p", ⟨.void, [.point ⟨0, 0⟩, .point ⟨5, 0⟩], 0⟩, ⟨0, 0⟩⟩ := by
      rw [solveRemaining_contradictory_fixed]
      rfl
    rw [hstep, solveGo_step (by simp) hhead]
    rfl

/-- CLAIM C2 (confirmed).  When some unsolved candidate of a round has
nonzero freedom, the candidate committed by that round exists, has nonzero
freedom, its freedom is least among the nonzero-freedom candidates (void
candidates sort as infinitely large), and every earlier candidate in
initial-map order is either void or strictly freer; the loop then commits
exactly that candidate. -/
theorem solveGo_most_constrained (initial : List (String × Position))
    (cs : List Constraint) (sol : List (String × Position)) (log : List LogEntry)
    (fuel : ℕ) (r : SolveStep)
    (hr : r ∈ solveRemaining initial cs sol)
    (hfr : r.localSolution.freedom ≠ 0)
    (hlt : sol.length < initial.length) :
    ∃ mc, (sortedBy (solveRemaining initial cs sol) sortKey).head? = some mc ∧
      mc ∈ solveRemaining initial cs sol ∧
      mc.localSolution.freedom ≠ 0 ∧
      (∀ c ∈ solveRemaining initial cs sol, c.localSolution.freedom ≠ 0 →
        mc.localSolution.freedom ≤ c.localSolution.freedom) ∧
      (∃ l₁ l₂, solveRemaining initial cs sol = l₁ ++ mc :: l₂ ∧
        ∀ c ∈ l₁, c.localSolution.freedom = 0 ∨
          mc.localSolution.freedom < c.localSolution.freedom) ∧
      solveGo initial cs (fuel + 1) sol log =
        solveGo initial cs fuel
          (mapSet sol mc.variable_ ((gamutNearest mc.localSolution.intersection
            mc.initialPoint).getD mc.initialPoint))
          (log ++ [⟨mc.variable_, mc.localSolution, mc.initialPoint,
            (gamutNearest mc.localSolution.intersection mc.initialPoint).getD
              mc.initialPoint⟩]) := by
  have hne : solveRemaining initial cs sol ≠ [] := by
    intro h
    rw [h] at hr
    exact absurd hr (List.not_mem_nil r)
  rcases hfm : firstMin sortKey (solveRemaining initial cs sol) with _ | mc
  · rw [firstMin_eq_none] at hfm
    exact absurd hfm hne
  have hhead : (sortedBy (solveRemaining initial cs sol) sortKey).head? = some mc := by
    rw [sortedBy_head?_eq_firstMin, hfm]
  have hmem := firstMin_mem hfm
  have hle := firstMin_le hfm
  have hmc_ne : mc.localSolution.freedom ≠ 0 := by
    intro h0
    have htop : sortKey mc = ⊤ := by rw [sortKey, if_pos h0]
    have h2 := hle r hr
    rw [htop, sortKey, if_neg hfr] at h2
    have := top_le_iff.mp h2
    exact WithTop.coe_ne_top this
  refine ⟨mc, hhead, hmem, hmc_ne, ?_, ?_, solveGo_step hlt hhead⟩
  · intro c hc hcne
    have h2 := hle c hc
    rw [sortKey, if_neg hmc_ne, sortKey, if_neg hcne] at h2
    exact_mod_cast h2
  · obtain ⟨l₁, l₂, heq, hstrict⟩ := firstMin_first hfm
    refine ⟨l₁, l₂, heq, ?_⟩
    intro c hc
    by_cases hcz : c.localSolution.freedom = 0
    · exact Or.inl hcz
    · right
      have h2 := hstrict c hc
      rw [sortKey, if_neg hmc_ne, sortKey, if_neg hcz] at h2
      exact_mod_cast h2

/-- Evaluation of the two candidates of the C2 instance's first round: a free
point (whole plane) and a point pinned by a fixed constraint. -/
theorem solveRemaining_one_fixed :
    solveRemaining [("p", (⟨1, 2⟩ : Position)), ("q", (⟨3, 4⟩ : Position))]
      [Constraint.fixed "q" ⟨3, 4⟩] [] =
      [⟨"p", ⟨.plane, [], ONE_DIMENSIONAL_FREEDOM ^ 2⟩, ⟨1, 2⟩⟩,
       ⟨"q", ⟨.point ⟨3, 4⟩, [.point ⟨3, 4⟩], 1⟩, ⟨3, 4⟩⟩] := rfl

/-- Witness for C2 at a concrete input: the pinned point `q` (freedom 1)
beats the free point `p` (freedom F²) and is committed first. -/
theorem solveGo_most_constrained_witness :
    ∃ mc, (sortedBy (solveRemaining
        [("p", (⟨1, 2⟩ : Position)), ("q", (⟨3, 4⟩ : Position))]
        [Constraint.fixed "q" ⟨3, 4⟩] []) sortKey).head? = some mc ∧
      mc ∈ solveRemaining [("p", (⟨1, 2⟩ : Position)), ("q", (⟨3, 4⟩ : Position))]
        [Constraint.fixed "q" ⟨3, 4⟩] [] ∧
      mc.localSolution.freedom ≠ 0 ∧
      (∀ c ∈ solveRemaining [("p", (⟨1, 2⟩ : Position)), ("q", (⟨3, 4⟩ : Position))]
          [Constraint.fixed "q" ⟨3, 4⟩] [], c.localSolution.freedom ≠ 0 →
        mc.localSolution.freedom ≤ c.localSolution.freedom) ∧
      (∃ l₁ l₂, solveRemaining [("p", (⟨1, 2⟩ : Position)), ("q", (⟨3, 4⟩ : Position))]
          [Constraint.fixed "q" ⟨3, 4⟩] [] = l₁ ++ mc :: l₂ ∧
        ∀ c ∈ l₁, c.localSolution.freedom = 0 ∨
          mc.localSolution.freedom < c.localSolution.freedom) ∧
      solveGo [("p", (⟨1, 2⟩ : Position)), ("q", (⟨3, 4⟩ : Position))]
          [Constraint.fixed "q" ⟨3, 4⟩] (0 + 1) [] [] =
        solveGo [("p", (⟨1, 2⟩ : Position)), ("q", (⟨3, 4⟩ : Position))]
          [Constraint.fixed "q" ⟨3, 4⟩] 0
          (mapSet [] mc.variable_ ((gamutNearest mc.localSolution.intersection
            mc.initialPoint).getD mc.initialPoint))
          ([] ++ [⟨mc.variable_, mc.localSolution, mc.initialPoint,
            (gamutNearest mc.localSolution.intersection mc.initialPoint).getD
              mc.initialPoint⟩]) :=
  solveGo_most_constrained
    [("p", ⟨1, 2⟩), ("q", ⟨3, 4⟩)] [Constraint.fixed "q" ⟨3, 4⟩] [] [] 0
    ⟨"q", ⟨.point ⟨3, 4⟩, [.point ⟨3, 4⟩], 1⟩, ⟨3, 4⟩⟩
    (by rw [solveRemaining_one_fixed]; simp)
    (by simp)
    (by simp)

/-! ## Evaluations and invariants of the intersection operators -/

/-- CLAIM C4 (code_bug).  Internal tangency: circles of radii 2 and 1 with
centers 1 apart touch at (2,0), but the source computes the "tangent point"
with the external-tangency denominator `a.radius + b.radius` and returns
(2/3, 0) — a point at distance 2/3 from the first center (radius 2) and 1/3
from the second (radius 1), on neither circle by far more than epsilon. -/
theorem circleCircle_internal_tangency_bug :
    circleCircleIntersection ⟨2, ⟨0, 0⟩⟩ ⟨1, ⟨1, 0⟩⟩ EPSILON =
      .points [⟨2 / 3, 0⟩] ∧
    pointDistance ⟨2 / 3, 0⟩ ⟨0, 0⟩ = 2 / 3 ∧
    |(2 : ℝ) / 3 - 2| > EPSILON ∧
    pointDistance ⟨2 / 3, 0⟩ ⟨1, 0⟩ = 1 / 3 ∧
    |(1 : ℝ) / 3 - 1| > EPSILON := by
  refine ⟨?_, ?_, ?_, ?_, ?_⟩
  · rw [circleCircleIntersection]
    norm_num [EPSILON, pointSubtract, pointMagnitude, linearSum]
  · rw [pointDistance]
    rw [show ((0 : ℝ) - 2 / 3) ^ 2 + ((0 : ℝ) - 0) ^ 2 = (2 / 3) ^ 2 by norm_num]
    exact Real.sqrt_sq (by norm_num)
  · rw [EPSILON, abs_sub_comm, abs_of_pos (by norm_num : (0 : ℝ) < 2 - 2 / 3)]
    norm_num
  · rw [pointDistance]
    rw [show ((1 : ℝ) - 2 / 3) ^ 2 + ((0 : ℝ) - 0) ^ 2 = (1 / 3) ^ 2 by norm_num]
    exact Real.sqrt_sq (by norm_num)
  · rw [EPSILON, abs_sub_comm, abs_of_pos (by norm_num : (0 : ℝ) < 1 - 1 / 3)]
    norm_num

/-- A gamut with no union member and no void member at the top level: the
shape the specification requires of simplified results. -/
def Gamut.isFlat : Gamut → Bool
  | .union l => l.all (fun m => !m.isUnion && !m.isVoid)
  | _ => true

theorem isFlat_simplifyGamut (g : Gamut) : (simplifyGamut g).isFlat = true := by
  rcases hs : simplifyGamut g with _ | p | c | li | ms | _
  · rfl
  · rfl
  · rfl
  · rfl
  · rw [Gamut.isFlat, List.all_eq_true]
    intro m hm
    have := simplifyGamut_flat g ms hs m hm
    rw [this.1, this.2]
    rfl
  · rfl

theorem gamutCircleIntersection_isFlat (g : Gamut) (c : Circle) (eps : ℝ) :
    (gamutCircleIntersection g c eps).isFlat = true := by
  cases g with
  | plane => rfl
  | circle own =>
    have e : gamutCircleIntersection (.circle own) c eps =
        match circleCircleIntersection own c eps with
        | .circle cc => .circle cc
        | .points ps => .union (ps.map (fun p => .point p)) := rfl
    rw [e]
    rcases circleCircleIntersection own c eps with ps | cc
    · rw [Gamut.isFlat, List.all_eq_true]
      intro m hm
      rcases List.mem_map.mp hm with ⟨p, _, hp⟩
      rw [← hp]
      rfl
    · rfl
  | point p =>
    have e : gamutCircleIntersection (.point p) c eps =
        if |pointDistance p c.center - c.radius| ≥ eps then .void
        else .point p := rfl
    rw [e]
    split
    · rfl
    · rfl
  | line l =>
    have e : gamutCircleIntersection (.line l) c eps =
        match circleLineIntersection c l with
        | [] => .void
        | ps => .union (ps.map (fun p => .point p)) := rfl
    rw [e]
    rcases circleLineIntersection c l with _ | ⟨p, ps⟩
    · rfl
    · rw [Gamut.isFlat, List.all_eq_true]
      intro m hm
      rcases List.mem_map.mp hm with ⟨p2, _, hp⟩
      rw [← hp]
      rfl
  | void => rfl
  | union l => exact isFlat_simplifyGamut _

theorem gamutLineIntersectLoop_isFlat (gl : Line) (acc : List Gamut)
    (lines : List Line) : (gamutLineIntersectLoop gl acc lines).isFlat = true := by
  induction lines generalizing acc with
  | nil => exact isFlat_simplifyGamut _
  | cons line rest ih =>
    rw [gamutLineIntersectLoop]
    rcases h : lineIntersection line gl with _ | p
    · show (if pointDistance gl.from_ (nearestToLinePos line.from_ line.to_ gl.from_) ≤
          EPSILON then Gamut.line gl else Gamut.void).isFlat = true
      split
      · rfl
      · rfl
    · show (gamutLineIntersectLoop gl (acc ++ [Gamut.point p]) rest).isFlat = true
      exact ih _

theorem gamutPointLinesLoop_isFlat (p : Position) (lines : List Line) :
    (gamutPointLinesLoop p lines).isFlat = true := by
  induction lines with
  | nil => rfl
  | cons line rest ih =>
    rw [gamutPointLinesLoop]
    split
    · rfl
    · exact ih

theorem gamutLinesIntersection_isFlat (g : Gamut) (lines : List Line) (eps : ℝ) :
    (gamutLinesIntersection g lines eps).isFlat = true := by
  cases g with
  | plane =>
    have e : gamutLinesIntersection .plane lines eps =
        .union (lines.map (fun line => .line line)) := rfl
    rw [e, Gamut.isFlat, List.all_eq_true]
    intro m hm
    rcases List.mem_map.mp hm with ⟨li, _, hli⟩
    rw [← hli]
    rfl
  | circle c =>
    have e : gamutLinesIntersection (.circle c) lines eps =
        .union ((lines.map (fun line =>
          (circleLineIntersection c line eps).map (fun p => Gamut.point p))).flatten) := rfl
    rw [e, Gamut.isFlat, List.all_eq_true]
    intro m hm
    rcases List.mem_flatten.mp hm with ⟨inner, hinner, hmem⟩
    rcases List.mem_map.mp hinner with ⟨li, _, hli⟩
    rw [← hli] at hmem
    rcases List.mem_map.mp hmem with ⟨p, _, hp⟩
    rw [← hp]
    rfl
  | line gl => exact gamutLineIntersectLoop_isFlat gl [] lines
  | point p => exact gamutPointLinesLoop_isFlat p lines
  | union l => exact isFlat_simplifyGamut _
  | void => rfl

theorem gamutGamutIntersection_isFlat (a b : Gamut) (eps : ℝ)
    (ha : a.isFlat = true) (hb : b.isFlat = true) :
    (gamutGamutIntersection a b eps).isFlat = true := by
  have hpoint : ∀ (a2 : Gamut) (p : Position),
      (match gamutNearest a2 p with
        | none => Gamut.void
        | some nearest =>
          if pointDistance nearest p > eps then Gamut.void else Gamut.point p).isFlat
        = true := by
    intro a2 p
    rcases h : gamutNearest a2 p with _ | n
    · rfl
    · show (if pointDistance n p > eps then Gamut.void else Gamut.point p).isFlat = true
      split
      · rfl
      · rfl
  cases a with
  | plane => cases b <;> exact hb
  | void => cases b <;> exact ha
  | point pa =>
    cases b with
    | plane => exact ha
    | void => rfl
    | union l => exact isFlat_simplifyGamut _
    | circle c => exact gamutCircleIntersection_isFlat _ _ _
    | line l => exact gamutLinesIntersection_isFlat _ _ _
    | point p => exact hpoint (Gamut.point pa) p
  | circle ca =>
    cases b with
    | plane => exact ha
    | void => rfl
    | union l => exact isFlat_simplifyGamut _
    | circle c => exact gamutCircleIntersection_isFlat _ _ _
    | line l => exact gamutLinesIntersection_isFlat _ _ _
    | point p => exact hpoint (Gamut.circle ca) p
  | line la =>
    cases b with
    | plane => exact ha
    | void => rfl
    | union l => exact isFlat_simplifyGamut _
    | circle c => exact gamutCircleIntersection_isFlat _ _ _
    | line l => exact gamutLinesIntersection_isFlat _ _ _
    | point p => exact hpoint (Gamut.line la) p
  | union la =>
    cases b with
    | plane => exact ha
    | void => rfl
    | union l => exact isFlat_simplifyGamut _
    | circle c => exact gamutCircleIntersection_isFlat _ _ _
    | line l => exact gamutLinesIntersection_isFlat _ _ _
    | point p => exact hpoint (Gamut.union la) p

/-- CLAIM C5 (corrected, amended part).  Every gamut returned by the public
intersection operators has no union member and no void member (for the
pairwise operator, provided its arguments are of that shape themselves); a
returned union may however have zero or one members — see the
counterexample. -/
theorem intersection_operators_flat :
    (∀ (g : Gamut) (c : Circle) (eps : ℝ),
      (gamutCircleIntersection g c eps).isFlat = true) ∧
    (∀ (g : Gamut) (lines : List Line) (eps : ℝ),
      (gamutLinesIntersection g lines eps).isFlat = true) ∧
    (∀ (a b : Gamut) (eps : ℝ), a.isFlat = true → b.isFlat = true →
      (gamutGamutIntersection a b eps).isFlat = true) :=
  ⟨gamutCircleIntersection_isFlat, gamutLinesIntersection_isFlat,
    gamutGamutIntersection_isFlat⟩

/-- Witness for C5's amended statement at a concrete input. -/
theorem intersection_operators_flat_witness :
    (gamutGamutIntersection (.point ⟨0, 0⟩) .plane EPSILON).isFlat = true :=
  intersection_operators_flat.2.2 (.point ⟨0, 0⟩) .plane EPSILON rfl rfl

/-- COUNTEREXAMPLE to CLAIM C5 as stated: intersecting two far-apart unit
circles returns a union with zero members — not void, and not a union of at
least two members. -/
theorem empty_circle_intersection_returns_union_nil :
    gamutCircleIntersection (.circle ⟨1, ⟨0, 0⟩⟩) ⟨1, ⟨10, 0⟩⟩ EPSILON =
      .union [] := by
  have e : gamutCircleIntersection (.circle ⟨1, ⟨0, 0⟩⟩) ⟨1, ⟨10, 0⟩⟩ EPSILON =
      match circleCircleIntersection ⟨1, ⟨0, 0⟩⟩ ⟨1, ⟨10, 0⟩⟩ EPSILON with
      | .circle cc => .circle cc
      | .points ps => .union (ps.map (fun p => .point p)) := rfl
  have hcc : circleCircleIntersection ⟨1, ⟨0, 0⟩⟩ ⟨1, ⟨10, 0⟩⟩ EPSILON =
      .points [] := by
    rw [circleCircleIntersection]
    have h100 : Real.sqrt (100 : ℝ) = 10 := by
      rw [show (100 : ℝ) = 10 ^ 2 by norm_num]
      exact Real.sqrt_sq (by norm_num)
    norm_num [EPSILON, pointSubtract, pointMagnitude, h100]
  rw [e, hcc]
  rfl

/-- CLAIM C10 (confirmed).  The zero-member union is structurally distinct
from void yet observationally void: it is empty, has freedom 0, and has no
nearest position for any query; and the intersection operators do produce it
(two far-apart circles). -/
theorem union_nil_observationally_void :
    gamutEmpty (.union []) = true ∧
    gamutFreedom (.union []) = 0 ∧
    (∀ q, gamutNearest (.union []) q = none) ∧
    Gamut.union [] ≠ Gamut.void ∧
    gamutCircleIntersection (.circle ⟨2, ⟨0, 0⟩⟩) ⟨1, ⟨7, 0⟩⟩ EPSILON =
      .union [] := by
  refine ⟨rfl, rfl, fun q => rfl, by simp, ?_⟩
  have e : gamutCircleIntersection (.circle ⟨2, ⟨0, 0⟩⟩) ⟨1, ⟨7, 0⟩⟩ EPSILON =
      match circleCircleIntersection ⟨2, ⟨0, 0⟩⟩ ⟨1, ⟨7, 0⟩⟩ EPSILON with
      | .circle cc => .circle cc
      | .points ps => .union (ps.map (fun p => .point p)) := rfl
  have hcc : circleCircleIntersection ⟨2, ⟨0, 0⟩⟩ ⟨1, ⟨7, 0⟩⟩ EPSILON =
      .points [] := by
    rw [circleCircleIntersection]
    have h49 : Real.sqrt (49 : ℝ) = 7 := by
      rw [show (49 : ℝ) = 7 ^ 2 by norm_num]
      exact Real.sqrt_sq (by norm_num)
    norm_num [EPSILON, pointSubtract, pointMagnitude, h49]
  rw [e, hcc]
  rfl

/-! ## The inscribed-angle locus (claim C6) -/

theorem Position.eq_iff (p q : Position) : p = q ↔ p.x = q.x ∧ p.y = q.y := by
  constructor
  · intro h
    rw [h]
    exact ⟨rfl, rfl⟩
  · intro h
    cases p
    cases q
    simp_all

theorem pointMagnitude_eq_zero (p : Position) :
    pointMagnitude p = 0 ↔ p.x = 0 ∧ p.y = 0 := by
  rw [pointMagnitude, Real.sqrt_eq_zero (by positivity)]
  constructor
  · intro h
    constructor <;> nlinarith [sq_nonneg p.x, sq_nonneg p.y]
  · rintro ⟨h1, h2⟩
    rw [h1, h2]
    ring

theorem pointMagnitude_sub_ne_zero {A B : Position} (h : A ≠ B) :
    pointMagnitude (pointSubtract B A) ≠ 0 := by
  rw [pointSubtract]
  intro hc
  rw [pointMagnitude_eq_zero] at hc
  apply h
  rw [Position.eq_iff]
  simp at hc
  constructor
  · linarith [hc.1]
  · linarith [hc.2]

/-- CLAIM C6 (corrected).  For an angle constraint whose target `v` appears
in both ordered pairs, with `A` and `B` the solved positions of the two
non-`v` points: the locus is void exactly when `A` and `B` coincide (the
source's finiteness guard, an exact zero test rather than the claimed
epsilon comparison), and otherwise it is the union of exactly two circles of
a common radius, each of whose centers is equidistant from `A` and `B` at
that radius — both circles pass through both anchors. -/
theorem angle_both_pairs_locus (v oa ob : String) (A B : Position)
    (M : List (String × Position)) (theta eps : ℝ)
    (hA : mapGet M oa = some A) (hv : mapGet M v = none)
    (hB : mapGet M ob = some B) :
    (A = B → localConstraintToGamut v (.angle (oa, v) (v, ob) theta) M eps = .void) ∧
    (A ≠ B →
      ∃ cNeg cPos radius,
        localConstraintToGamut v (.angle (oa, v) (v, ob) theta) M eps =
          .union [.circle ⟨radius, cNeg⟩, .circle ⟨radius, cPos⟩] ∧
        pointDistance cPos A = radius ∧ pointDistance cPos B = radius ∧
        pointDistance cNeg A = radius ∧ pointDistance cNeg B = radius) := by
  constructor
  · intro hAB
    subst hAB
    simp [localConstraintToGamut, hA, hv, hB, Option.or, mapGetD,
      pointSubtract, pointMagnitude]
  · intro hAB
    have hmag := pointMagnitude_sub_ne_zero hAB
    refine ⟨linearSum [(1/2, A), (1/2, B),
        (-(pointDistance A B / 2 / Real.tan theta),
          ⟨-(pointUnit (pointSubtract B A)).y, (pointUnit (pointSubtract B A)).x⟩)],
      linearSum [(1/2, A), (1/2, B),
        (pointDistance A B / 2 / Real.tan theta,
          ⟨-(pointUnit (pointSubtract B A)).y, (pointUnit (pointSubtract B A)).x⟩)],
      pointDistance (linearSum [(1/2, A), (1/2, B),
        (pointDistance A B / 2 / Real.tan theta,
          ⟨-(pointUnit (pointSubtract B A)).y, (pointUnit (pointSubtract B A)).x⟩)]) A,
      ?_, rfl, ?_, ?_, ?_⟩
    · simp [localConstraintToGamut, hA, hv, hB, Option.or, mapGetD, hmag]
    · rw [pointDistance, pointDistance]
      congr 1
      simp only [linearSum, pointUnit, pointSubtract, pointDistance,
        List.foldl]
      ring
    · rw [pointDistance, pointDistance]
      congr 1
      simp only [linearSum, pointUnit, pointSubtract, pointDistance,
        List.foldl]
      ring
    · rw [pointDistance, pointDistance]
      congr 1
      simp only [linearSum, pointUnit, pointSubtract, pointDistance,
        List.foldl]
      ring

/-- Witness for C6's amended statement at a concrete input. -/
theorem angle_both_pairs_locus_witness :
    (localConstraintToGamut "p" (Constraint.angle ("a", "p") ("p", "b")
      (Real.pi / 4)) [("a", ⟨0, 0⟩), ("b", ⟨3, 4⟩)] EPSILON).isUnion = true := by
  obtain ⟨cN, cP, r, heq, _⟩ :=
    (angle_both_pairs_locus "p" "a" "b" ⟨0, 0⟩ ⟨3, 4⟩
      [("a", ⟨0, 0⟩), ("b", ⟨3, 4⟩)] (Real.pi / 4) EPSILON rfl rfl rfl).2
      (by
        intro h
        rw [Position.eq_iff] at h
        norm_num at h)
  rw [heq]
  rfl

/-- COUNTEREXAMPLE to CLAIM C6 as stated: two distinct anchors closer than
epsilon (distance 1/2000 < 1/1000) do not give a void locus — the source
only voids the locus when the anchors coincide exactly. -/
theorem angle_close_anchors_not_void :
    localConstraintToGamut "p" (Constraint.angle ("a", "p") ("p", "b")
        (Real.pi / 4)) [("a", ⟨0, 0⟩), ("b", ⟨1 / 2000, 0⟩)] EPSILON ≠ .void ∧
    pointDistance ⟨0, 0⟩ ⟨1 / 2000, 0⟩ < EPSILON ∧
    (0 : ℝ) < pointDistance ⟨0, 0⟩ ⟨1 / 2000, 0⟩ := by
  have hd : pointDistance ⟨0, 0⟩ ⟨1 / 2000, 0⟩ = 1 / 2000 := by
    rw [pointDistance]
    rw [show ((1 : ℝ) / 2000 - 0) ^ 2 + ((0 : ℝ) - 0) ^ 2 = (1 / 2000) ^ 2 by norm_num]
    exact Real.sqrt_sq (by norm_num)
  have hmag : pointMagnitude (pointSubtract ⟨((2000 : ℝ))⁻¹, 0⟩ ⟨0, 0⟩) ≠ 0 :=
    pointMagnitude_sub_ne_zero (by
      intro h
      rw [Position.eq_iff] at h
      norm_num at h)
  refine ⟨?_, ?_, ?_⟩
  · simp [localConstraintToGamut, mapGet, mapGetD, Option.or, hmag]
  · rw [hd, EPSILON]
    norm_num
  · rw [hd]
    norm_num

/-! ## Commutativity of the pairwise intersection (claim C7) -/

theorem sqrt_three_div_two_sq : (Real.sqrt 3 / 2) ^ 2 = 3 / 4 := by
  rw [div_pow, Real.sq_sqrt (by norm_num : (0 : ℝ) ≤ 3)]
  norm_num

theorem sin_arccos_half : Real.sin (Real.arccos (1 / 2)) = Real.sqrt 3 / 2 := by
  rw [Real.sin_arccos]
  rw [show (1 : ℝ) - (1 / 2) ^ 2 = 3 / 4 by norm_num]
  rw [Real.sqrt_div (by norm_num : (0 : ℝ) ≤ 3) 4]
  rw [show (4 : ℝ) = 2 ^ 2 by norm_num, Real.sqrt_sq (by norm_num : (0 : ℝ) ≤ 2)]

theorem cos_arccos_half : Real.cos (Real.arccos (1 / 2)) = 1 / 2 :=
  Real.cos_arccos (by norm_num) (by norm_num)

theorem circleCircle_unit_forward :
    circleCircleIntersection ⟨1, ⟨0, 0⟩⟩ ⟨1, ⟨1, 0⟩⟩ EPSILON =
      .points [⟨1 / 2, Real.sqrt 3 / 2⟩, ⟨1 / 2, -(Real.sqrt 3 / 2)⟩] := by
  rw [circleCircleIntersection]
  norm_num [EPSILON, pointSubtract, pointMagnitude, linearSum,
    cos_arccos_half, sin_arccos_half]

theorem circleCircle_unit_backward :
    circleCircleIntersection ⟨1, ⟨1, 0⟩⟩ ⟨1, ⟨0, 0⟩⟩ EPSILON =
      .points [⟨1 / 2, -(Real.sqrt 3 / 2)⟩, ⟨1 / 2, Real.sqrt 3 / 2⟩] := by
  rw [circleCircleIntersection]
  norm_num [EPSILON, pointSubtract, pointMagnitude, linearSum,
    cos_arccos_half, sin_arccos_half]

theorem distance_top_intersection :
    pointDistance ⟨1 / 2, Real.sqrt 3 / 2⟩ ⟨1 / 2, 0⟩ = Real.sqrt 3 / 2 := by
  rw [pointDistance]
  rw [show ((1 : ℝ) / 2 - 1 / 2) ^ 2 + ((0 : ℝ) - Real.sqrt 3 / 2) ^ 2 =
    (Real.sqrt 3 / 2) ^ 2 by ring]
  exact Real.sqrt_sq (by positivity)

theorem distance_bottom_intersection :
    pointDistance ⟨1 / 2, -(Real.sqrt 3 / 2)⟩ ⟨1 / 2, 0⟩ = Real.sqrt 3 / 2 := by
  rw [pointDistance]
  rw [show ((1 : ℝ) / 2 - 1 / 2) ^ 2 + ((0 : ℝ) - -(Real.sqrt 3 / 2)) ^ 2 =
    (Real.sqrt 3 / 2) ^ 2 by ring]
  exact Real.sqrt_sq (by positivity)

/-- The union fold of `gamutNearest` keeps the earlier of two equidistant
point members. -/
theorem gamutNearest_two_points_tie (p1 p2 q : Position)
    (h : ¬pointDistance p2 q < pointDistance p1 q) :
    gamutNearest (.union [.point p1, .point p2]) q = some p1 := by
  have e : gamutNearest (.union [.point p1, .point p2]) q =
      (if pointDistance p2 q < pointDistance p1 q
        then gamutNearestList [] q (some p2)
        else gamutNearestList [] q (some p1)) := rfl
  rw [e, if_neg h]
  rfl

/-- CLAIM C7 (code_bug).  Pairwise intersection is not commutative in
outcome: intersecting the two unit circles centered at (0,0) and (1,0) in
the two argument orders yields the same two intersection points in opposite
member orders, so for the equidistant query (1/2, 0) the nearest-tie breaks
to the top point in one order and to the bottom point in the other — the two
results are √3 apart, far beyond epsilon. -/
theorem intersect_commutativity_bug :
    gamutNearest (gamutGamutIntersection (.circle ⟨1, ⟨0, 0⟩⟩)
        (.circle ⟨1, ⟨1, 0⟩⟩) EPSILON) ⟨1 / 2, 0⟩ =
      some ⟨1 / 2, Real.sqrt 3 / 2⟩ ∧
    gamutNearest (gamutGamutIntersection (.circle ⟨1, ⟨1, 0⟩⟩)
        (.circle ⟨1, ⟨0, 0⟩⟩) EPSILON) ⟨1 / 2, 0⟩ =
      some ⟨1 / 2, -(Real.sqrt 3 / 2)⟩ ∧
    pointDistance ⟨1 / 2, Real.sqrt 3 / 2⟩ ⟨1 / 2, -(Real.sqrt 3 / 2)⟩ >
      EPSILON := by
  refine ⟨?_, ?_, ?_⟩
  · have e : gamutGamutIntersection (.circle ⟨1, ⟨0, 0⟩⟩)
        (.circle ⟨1, ⟨1, 0⟩⟩) EPSILON =
        match circleCircleIntersection ⟨1, ⟨0, 0⟩⟩ ⟨1, ⟨1, 0⟩⟩ EPSILON with
        | .circle cc => .circle cc
        | .points ps => .union (ps.map (fun p => .point p)) := rfl
    rw [e, circleCircle_unit_forward]
    exact gamutNearest_two_points_tie _ _ _ (by
      rw [distance_top_intersection, distance_bottom_intersection]
      exact lt_irrefl _)
  · have e : gamutGamutIntersection (.circle ⟨1, ⟨1, 0⟩⟩)
        (.circle ⟨1, ⟨0, 0⟩⟩) EPSILON =
        match circleCircleIntersection ⟨1, ⟨1, 0⟩⟩ ⟨1, ⟨0, 0⟩⟩ EPSILON with
        | .circle cc => .circle cc
        | .points ps => .union (ps.map (fun p => .point p)) := rfl
    rw [e, circleCircle_unit_backward]
    exact gamutNearest_two_points_tie _ _ _ (by
      rw [distance_top_intersection, distance_bottom_intersection]
      exact lt_irrefl _)
  · rw [pointDistance]
    rw [show ((1 : ℝ) / 2 - 1 / 2) ^ 2 +
      (-(Real.sqrt 3 / 2) - Real.sqrt 3 / 2) ^ 2 = (Real.sqrt 3) ^ 2 by
        rw [show (-(Real.sqrt 3 / 2) - Real.sqrt 3 / 2) ^ 2 =
          (Real.sqrt 3 / 2) ^ 2 * 4 by ring, sqrt_three_div_two_sq]
        rw [Real.sq_sqrt (by norm_num : (0 : ℝ) ≤ 3)]
        norm_num]
    rw [Real.sqrt_sq (Real.sqrt_nonneg 3), EPSILON]
    have h1 : (1 : ℝ) ≤ Real.sqrt 3 := by
      rw [show (1 : ℝ) = Real.sqrt 1 by rw [Real.sqrt_one]]
      exact Real.sqrt_le_sqrt (by norm_num)
    linarith

/-! ## The segment-distance endpoint locus (claim C3) -/

/-- The 2-D cross product, used to state the claim's perpendicular-distance
condition: a position q lies at perpendicular distance d from the infinite
line through `f` with direction `u` iff `cross (q - f) u ^ 2 = d ^ 2 * |u|²`. -/
noncomputable def cross (u w : Position) : ℝ := u.x * w.y - u.y * w.x

theorem tan_arcsin_half : Real.tan (Real.arcsin (1 / 2)) = 1 / Real.sqrt 3 := by
  rw [Real.tan_arcsin]
  rw [show (1 : ℝ) - (1 / 2) ^ 2 = 3 / 4 by norm_num]
  rw [Real.sqrt_div (by norm_num : (0 : ℝ) ≤ 3) 4]
  rw [show (4 : ℝ) = 2 ^ 2 by norm_num, Real.sqrt_sq (by norm_num : (0 : ℝ) ≤ 2)]
  rw [div_div_eq_mul_div]
  ring

/-- CLAIM C3 (code_bug).  Segment-distance constraint solved for a segment
endpoint: with `A = M(a) = (2,0)`, the other endpoint `B = (0,0)` and target
distance `d = 1`, the source returns the two lines from `B` to
`(2, ±tan θ)` with `θ = asin(d/|AB|) = asin(1/2)` — the direction mixes the
unnormalized base vector `A − B` (length 2) with a normalized perpendicular
component, against the source's own comment ("the lines that make a theta
angle with (b_t, a)").  The returned line does not lie at perpendicular
distance `d` from `A`: the claim demands `cross(A−B, dir)² = d²·|dir|²`,
but the two sides evaluate to 4/3 and 13/3. -/
theorem segment_distance_angle_bug :
    localConstraintToGamut "q" (Constraint.segmentDistance "a" ("b", "q") 1)
        [("a", ⟨2, 0⟩), ("b", ⟨0, 0⟩)] EPSILON =
      .union [
        .line ⟨⟨0, 0⟩, ⟨2, Real.tan (Real.arcsin (1 / 2))⟩⟩,
        .line ⟨⟨0, 0⟩, ⟨2, -Real.tan (Real.arcsin (1 / 2))⟩⟩] ∧
    Real.tan (Real.arcsin (1 / 2)) = 1 / Real.sqrt 3 ∧
    cross (pointSubtract ⟨2, 0⟩ ⟨0, 0⟩)
        (pointSubtract ⟨2, 1 / Real.sqrt 3⟩ ⟨0, 0⟩) ^ 2 = 4 / 3 ∧
    (1 : ℝ) ^ 2 * (((2 : ℝ) - 0) ^ 2 + (1 / Real.sqrt 3 - 0) ^ 2) = 13 / 3 ∧
    ((4 : ℝ) / 3) ≠ 13 / 3 := by
  have h4 : Real.sqrt 4 = 2 := by
    rw [show (4 : ℝ) = 2 ^ 2 by norm_num]
    exact Real.sqrt_sq (by norm_num)
  have h3 : (Real.sqrt 3) ^ 2 = 3 := Real.sq_sqrt (by norm_num)
  refine ⟨?_, tan_arcsin_half, ?_, ?_, by norm_num⟩
  · simp only [localConstraintToGamut]
    rw [if_neg (by decide : ¬(("a" : String) = "b" ∨ ("a" : String) = "q"))]
    rw [if_neg (by decide : ¬("q" : String) = "a")]
    rw [if_neg (by decide : ¬("q" : String) = "b")]
    rw [show mapGetD [("a", (⟨2, 0⟩ : Position)), ("b", (⟨0, 0⟩ : Position))] "a" =
      ⟨2, 0⟩ from rfl]
    rw [show mapGetD [("a", (⟨2, 0⟩ : Position)), ("b", (⟨0, 0⟩ : Position))] "b" =
      ⟨0, 0⟩ from rfl]
    norm_num [pointSubtract, pointMagnitude, linearSum, EPSILON, h4]
  · rw [cross, pointSubtract, pointSubtract]
    simp only []
    rw [show ((2 : ℝ) - 0) * (1 / Real.sqrt 3 - 0) - (0 - 0) * (2 - 0) =
      2 * (1 / Real.sqrt 3) by ring]
    rw [mul_pow, div_pow, one_pow, h3]
    norm_num
  · rw [show (1 / Real.sqrt 3 - 0 : ℝ) = 1 / Real.sqrt 3 by ring]
    rw [div_pow, one_pow, h3]
    norm_num

end Twill
